import Mathlib

/-!
Verification development for the tile-based 2D Gaussian splatting
rasterizer: a shallow embedding of the tile mapper
(`gaussian_rasterizer/tile_mapper.py`), the forward rasterizer kernel
(`taichi_splatting/rasterizer/forward.py`) and the backward rasterizer
kernel (`taichi_splatting/rasterizer/backward.py`), together with
theorems about the embedded code.

Machine integers are modelled as `Int` with explicit two's-complement
wrapping where the kernels cast or overflow; `f32` screen coordinates
are modelled as exact rationals; `f32` depth values, whose bit pattern
the sort key uses, are modelled by their IEEE-754 fields.
-/

/-- Two's-complement wrap of an integer into the signed 32-bit range, as
performed by a cast to `ti.i32`. -/
def toInt32 (z : ℤ) : ℤ := (2 ^ 31 + z) % 2 ^ 32 - 2 ^ 31

/-- Two's-complement wrap of an integer into the signed 64-bit range, as
performed by `ti.i64` arithmetic (including the left shift by 32). -/
def toInt64 (z : ℤ) : ℤ := (2 ^ 63 + z) % 2 ^ 64 - 2 ^ 63

/-- A finite, non-negative IEEE-754 single precision value (sign bit 0),
given by its exponent and mantissa fields.  Exponent 255 (infinities and
NaNs) is excluded, so the type contains exactly the finite non-negative
`f32` values required of the depth input. -/
structure F32 where
  exp : ℕ
  mant : ℕ
  exp_le : exp ≤ 254
  mant_lt : mant < 2 ^ 23
deriving DecidableEq

instance : Inhabited F32 := ⟨⟨0, 0, by norm_num, by norm_num⟩⟩

/-- The unsigned 32-bit pattern of a non-negative finite float, as read
by `ti.bit_cast(depth, ti.i32)` (the sign bit is 0, so the pattern is
also the unsigned interpretation). -/
def F32.bits (d : F32) : ℕ := d.exp * 2 ^ 23 + d.mant

/-- The value of the float scaled by `2 ^ 149` so that it is a natural
number: denormals are `mant`, normals are `(2^23 + mant) * 2^(exp-1)`. -/
def F32.scaled (d : F32) : ℕ :=
  if d.exp = 0 then d.mant else (2 ^ 23 + d.mant) * 2 ^ (d.exp - 1)

/-- The real value of the float, as an exact rational. -/
def F32.val (d : F32) : ℚ := (d.scaled : ℚ) / 2 ^ 149

/-- The packed depth value 1.0f. -/
def f32One : F32 := ⟨127, 0, by norm_num, by norm_num⟩

/-- The packed depth value 2.0f. -/
def f32Two : F32 := ⟨128, 0, by norm_num, by norm_num⟩

/-- A 2D Gaussian as consumed by the tile mapper: screen position `uv`
and the value `radius0` returned by the helper `radii_from_conic` on its
conic.  That helper lives in `gaussian_rasterizer/taichi/covariance.py`,
outside this repository's sources, so the Gaussian carries its result
directly; `gaussian_tile_ranges` clamps it below by one pixel.
Coordinates are modelled as exact rationals. -/
structure Gaussian where
  uvx : ℚ
  uvy : ℚ
  radius0 : ℚ
deriving DecidableEq

instance : Inhabited Gaussian := ⟨⟨0, 0, 0⟩⟩

/-- Embedding of `gaussian_tile_ranges` from `tile_mapper.py`: the
per-Gaussian half-open tile bounding box
`((min_tx, min_ty), (max_tx, max_ty))`.  `Int.floor` models the float
floor-division `//` followed by the exact `i32` cast, and `Int.fdiv`
models the integer `//` computing `max_tile`. -/
def gaussianTileRanges (ts W H : ℤ) (g : Gaussian) : (ℤ × ℤ) × (ℤ × ℤ) :=
  let radius : ℚ := max g.radius0 1
  let minBoundX : ℚ := max 0 (g.uvx - radius)
  let minBoundY : ℚ := max 0 (g.uvy - radius)
  let maxBoundX : ℚ := g.uvx + radius
  let maxBoundY : ℚ := g.uvy + radius
  let maxTileX : ℤ := Int.fdiv W ts
  let maxTileY : ℤ := Int.fdiv H ts
  let minTX : ℤ := min ⌊minBoundX / (ts : ℚ)⌋ maxTileX
  let minTY : ℤ := min ⌊minBoundY / (ts : ℚ)⌋ maxTileY
  let maxTX : ℤ := min (max (⌊maxBoundX / (ts : ℚ)⌋ + 1) (minTX + 1)) maxTileX
  let maxTY : ℤ := min (max (⌊maxBoundY / (ts : ℚ)⌋ + 1) (minTY + 1)) maxTileY
  ((minTX, minTY), (maxTX, maxTY))

/-- The overlap count `counts[idx + 1] = size.x * size.y` emitted by
`tile_overlaps_kernel` for one Gaussian. -/
def tileCount (ts W H : ℤ) (g : Gaussian) : ℤ :=
  let b := gaussianTileRanges ts W H g
  (b.2.1 - b.1.1) * (b.2.2 - b.1.2)

/-- The tile `(tx, ty)` lies in the half-open tile bounding box computed
by `gaussian_tile_ranges` for `g`. -/
def inBox (ts W H : ℤ) (g : Gaussian) (tx ty : ℤ) : Prop :=
  let b := gaussianTileRanges ts W H g
  b.1.1 ≤ tx ∧ tx < b.2.1 ∧ b.1.2 ≤ ty ∧ ty < b.2.2

instance (ts W H : ℤ) (g : Gaussian) (tx ty : ℤ) :
    Decidable (inBox ts W H g tx ty) := by
  unfold inBox
  exact inferInstance

/-- Embedding of the sort key computation of `generate_sort_keys_kernel`:
`sort_key = i64(bit_cast_i32(depth)) + (i64(i32(tx + ty * tiles_wide)) << 32)`,
with every cast and the 64-bit shift and addition wrapping. -/
def emittedKey (tilesWide : ℤ) (depthBits : ℕ) (tx ty : ℤ) : ℤ :=
  toInt64 (toInt32 (depthBits : ℤ) + toInt64 (toInt32 (tx + ty * tilesWide) * 2 ^ 32))

/-- The `(sort key, point index)` records written by
`generate_sort_keys_kernel` for one Gaussian with the tile box
`[x0, x1) × [y0, y1)`, listed in the order of the write positions
`cum[idx] + v + u * tile_span.y` (`u` outer, `v` inner). -/
def entriesForBox (tilesWide : ℤ) (depthBits : ℕ) (x0 y0 x1 y1 : ℤ)
    (idx : ℕ) : List (ℤ × ℕ) :=
  (List.range (x1 - x0).toNat).flatMap (fun (u : ℕ) =>
    (List.range (y1 - y0).toNat).map (fun (v : ℕ) =>
      (emittedKey tilesWide depthBits (x0 + (u : ℤ)) (y0 + (v : ℤ)), idx)))

/-- The records of one Gaussian, with the box from
`gaussian_tile_ranges`. -/
def entriesFor (ts W H tilesWide : ℤ) (idx : ℕ) (g : Gaussian) (d : F32) :
    List (ℤ × ℕ) :=
  entriesForBox tilesWide d.bits (gaussianTileRanges ts W H g).1.1
    (gaussianTileRanges ts W H g).1.2 (gaussianTileRanges ts W H g).2.1
    (gaussianTileRanges ts W H g).2.2 idx

/-- All records written by `generate_sort_keys_kernel`, in write position
order: the positions of Gaussian `idx` are the exclusive prefix sum
`cum[idx]` plus `0 … count[idx] - 1`, so the key and point arrays equal
this concatenation over Gaussians in index order. -/
def allEntries (ts W H tilesWide : ℤ) (gs : List Gaussian) (ds : List F32) :
    List (ℤ × ℕ) :=
  ((gs.zip ds).enum).flatMap (fun p => entriesFor ts W H tilesWide p.1 p.2.1 p.2.2)

/-- The total overlap count `cum[N]` computed by
`generate_tile_overlaps` (the inclusive prefix sum's last entry). -/
def totalOverlap (ts W H : ℤ) (gs : List Gaussian) : ℤ :=
  (gs.map (tileCount ts W H)).sum

/-- `torch.sort` of the 64-bit keys together with the matching
permutation of `overlap_to_point`, modelled as sorting the records by
ascending key (ties in an unspecified order; the merge sort fixes one). -/
def sortedEntries (ts W H tilesWide : ℤ) (gs : List Gaussian) (ds : List F32) :
    List (ℤ × ℕ) :=
  (allEntries ts W H tilesWide gs ds).mergeSort (fun a b => decide (a.1 ≤ b.1))

/-- Write of the start field of one tile range table row. -/
def setStart (f : ℤ → ℕ × ℕ) (t : ℤ) (v : ℕ) : ℤ → ℕ × ℕ :=
  fun t2 => if t2 = t then (v, (f t).2) else f t2

/-- Write of the end field of one tile range table row. -/
def setEnd (f : ℤ → ℕ × ℕ) (t : ℤ) (v : ℕ) : ℤ → ℕ × ℕ :=
  fun t2 => if t2 = t then ((f t).1, v) else f t2

/-- The tile id read from the upper 32 bits of a sort key by
`find_ranges_kernel`: `i32(key >> 32)`, an arithmetic (flooring) shift
followed by the `i32` cast. -/
def keyTile (key : ℤ) : ℤ := toInt32 (Int.fdiv key (2 ^ 32))

/-- The record predicate used to state the tile range invariants: the
record's key targets tile `tid` and its point index is `idx`. -/
def entryPred (tid : ℤ) (idx : ℕ) (e : ℤ × ℕ) : Bool :=
  decide (keyTile e.1 = tid ∧ e.2 = idx)

/-- One iteration of the scan loop of `find_ranges_kernel`: where the
tile id changes between adjacent sorted keys, record the end of the
previous tile and the start of the next. -/
def findRangesStep (keys : List ℤ) (f : ℤ → ℕ × ℕ) (idx : ℕ) : ℤ → ℕ × ℕ :=
  let t := keyTile (keys.getD idx 0)
  let t2 := keyTile (keys.getD (idx + 1) 0)
  if t ≠ t2 then setEnd (setStart f t2 (idx + 1)) t (idx + 1) else f

/-- Embedding of `find_ranges_kernel`: the table starts zero-filled, the
scan visits adjacent pairs, and the end of the last key's tile is set to
the key count. -/
def findRanges (keys : List ℤ) : ℤ → ℕ × ℕ :=
  let base := (List.range (keys.length - 1)).foldl (findRangesStep keys) (fun _ => (0, 0))
  setEnd base (keyTile (keys.getD (keys.length - 1) 0)) keys.length

/-- Embedding of the tile mapper body `f` in `tile_mapper.py`
(`map_to_tiles` applies it): when the total overlap is positive, emit the
records, sort them and find the per-tile ranges; otherwise return the
empty overlap list and the zero-filled range table. -/
def mapToTiles (ts W H : ℤ) (gs : List Gaussian) (ds : List F32) :
    List ℕ × (ℤ → ℕ × ℕ) :=
  if 0 < totalOverlap ts W H gs then
    let s := sortedEntries ts W H (Int.fdiv W ts) gs ds
    (s.map Prod.snd, findRanges (s.map Prod.fst))
  else
    ([], fun _ => (0, 0))

/-- Configurable parameters shared by the forward and backward kernels
(`RasterConfig` fields read as `ti.static` constants). -/
structure RasterConfig where
  alphaThreshold : ℚ
  clampMaxAlpha : ℚ
  saturateThreshold : ℚ
deriving DecidableEq

/-- Per-lane state of `_forward_kernel`: a transmittance `T_i[i]` and a
feature accumulator row for each of the lane's `thread_pixels` pixels,
plus the lane's shared `last_point_idx` and `pixel_saturated`
variables. -/
structure LaneState (tp F : ℕ) where
  T : Fin tp → ℚ
  accum : Fin tp → Fin F → ℚ
  lastIdx : ℕ
  saturated : Bool

/-- One pixel's update for one Gaussian in `_forward_kernel` (the body of
the static loop over the lane's pixels): threshold the alpha, clamp it,
test the prospective transmittance against saturation, and on acceptance
accumulate the weighted feature, advance the transmittance and record
`last_point_idx = j + 1` while clearing the shared saturation flag.
The Gaussian density `conic_pdf` lives in `taichi_lib/f32.py`, outside
this repository's sources; modelled from the spec it is
`exp(-(x-uv)ᵀ conic (x-uv) / 2) ∈ [0,1]` at the pixel centre, and its
value for lane pixel `i` and point `p` is supplied as `pdf i p`. -/
def pixelStep (tp F : ℕ) (cfg : RasterConfig) (pdf : Fin tp → ℕ → ℚ)
    (pointAlpha : ℕ → ℚ) (features : ℕ → Fin F → ℚ) (p j : ℕ)
    (st : LaneState tp F) (i : Fin tp) : LaneState tp F :=
  let gaussianAlpha := pdf i p
  let a0 := pointAlpha p * gaussianAlpha
  let a1 := if a0 < cfg.alphaThreshold then 0 else a0
  let alpha := min a1 cfg.clampMaxAlpha
  let nextT := st.T i * (1 - alpha)
  if 1 - cfg.saturateThreshold < nextT then
    { T := Function.update st.T i nextT,
      accum := Function.update st.accum i
        (fun d => st.accum i d + features p d * alpha * st.T i),
      lastIdx := j + 1,
      saturated := false }
  else st

/-- Processing of one Gaussian (overlap index `j`) by a lane of
`_forward_kernel`: set the shared saturation flag, then run the unrolled
per-pixel loop in pixel order; any accepting pixel clears the flag. -/
def processGauss (tp F : ℕ) (cfg : RasterConfig) (pdf : Fin tp → ℕ → ℚ)
    (pointAlpha : ℕ → ℚ) (features : ℕ → Fin F → ℚ) (o2p : List ℕ)
    (st : LaneState tp F) (j : ℕ) : LaneState tp F :=
  (List.finRange tp).foldl
    (pixelStep tp F cfg pdf pointAlpha features (o2p.getD j 0) j)
    { st with saturated := true }

/-- The per-lane main loop of `_forward_kernel` over the tile's overlap
indices in ascending order, stopping at the first Gaussian that every
pixel of the lane refused (the `if pixel_saturated: break` check at the
head of the render loop). -/
def laneRun (tp F : ℕ) (cfg : RasterConfig) (pdf : Fin tp → ℕ → ℚ)
    (pointAlpha : ℕ → ℚ) (features : ℕ → Fin F → ℚ) (o2p : List ℕ) :
    List ℕ → LaneState tp F → LaneState tp F
  | [], st => st
  | j :: js, st =>
      if st.saturated then st
      else laneRun tp F cfg pdf pointAlpha features o2p js
        (processGauss tp F cfg pdf pointAlpha features o2p st j)

/-- Initial lane state of `_forward_kernel`: unit transmittance, zero
features, `last_point_idx = start_offset`, not saturated. -/
def initLane (tp F startOffset : ℕ) : LaneState tp F :=
  { T := fun _ => 1, accum := fun _ _ => 0, lastIdx := startOffset, saturated := false }

/-- The forward pass of one lane over its tile's overlap range
`[startOffset, endOffset)`. -/
def forwardLane (tp F : ℕ) (cfg : RasterConfig) (pdf : Fin tp → ℕ → ℚ)
    (pointAlpha : ℕ → ℚ) (features : ℕ → Fin F → ℚ) (o2p : List ℕ)
    (startOffset endOffset : ℕ) : LaneState tp F :=
  laneRun tp F cfg pdf pointAlpha features o2p
    (List.range' startOffset (endOffset - startOffset)) (initLane tp F startOffset)

/-- The per-pixel value written to `image_alpha` at the end of
`_forward_kernel`: `1 - T_i[i]`. -/
def imageAlphaOut (tp F : ℕ) (st : LaneState tp F) (i : Fin tp) : ℚ :=
  1 - st.T i

/-- Gradient with respect to one packed Gaussian, in the
`Gaussian2D.to_vec` slot order: mean (2), conic (3), point alpha. -/
structure PointGrad where
  duvx : ℚ
  duvy : ℚ
  dca : ℚ
  dcb : ℚ
  dcc : ℚ
  dalpha : ℚ
deriving DecidableEq

/-- The zero Gaussian gradient. -/
def PointGrad.zero : PointGrad := ⟨0, 0, 0, 0, 0, 0⟩

/-- Componentwise sum of Gaussian gradients (the atomic accumulation). -/
def PointGrad.add (a b : PointGrad) : PointGrad :=
  ⟨a.duvx + b.duvx, a.duvy + b.duvy, a.dca + b.dca, a.dcb + b.dcb,
   a.dcc + b.dcc, a.dalpha + b.dalpha⟩

/-- Per-pixel state of `_backward_kernel`: the transmittance `T_i`, the
back-to-front remainder sum `w_i`, and the global gradient buffers the
pixel has accumulated into (atomic adds commute, so from one pixel's
point of view they are plain function updates). -/
structure BwdState (F : ℕ) where
  T : ℚ
  w : Fin F → ℚ
  gradPoints : ℕ → PointGrad
  gradFeatures : ℕ → Fin F → ℚ

/-- One Gaussian's processing for one pixel in `_backward_kernel`
(back-to-front, overlap index `j`, `point_index = j + 1`): compute
`has_grad` from the unclamped alpha and `image_last_valid`, and when it
holds clamp the alpha, recover the transmittance by dividing out
`1 - alpha`, form the feature-space alpha gradient from the current
remainder sum `w`, update `w`, and form the point and feature gradients.
Returns the new state together with the `(grad_point, grad_feature)`
contribution of this record for this pixel.
The helper `conic_pdf_with_grad` lives in `taichi_lib/f32.py`, outside
this repository's sources; modelled from the spec it returns the density
`p ∈ [0,1]` and its gradients with respect to the mean and the conic, so
its three results at this pixel are supplied as `pdfG`, `dpMean` and
`dpConic`. -/
def backStepFull (F : ℕ) (cfg : RasterConfig) (pointAlpha : ℕ → ℚ)
    (features : ℕ → Fin F → ℚ) (pdfG : ℕ → ℚ) (dpMean : ℕ → ℚ × ℚ)
    (dpConic : ℕ → ℚ × ℚ × ℚ) (gradPixel : Fin F → ℚ) (lastIdx : ℕ)
    (o2p : List ℕ) (st : BwdState F) (j : ℕ) :
    BwdState F × (PointGrad × (Fin F → ℚ)) :=
  let p := o2p.getD j 0
  let gaussianAlpha := pdfG p
  let alphaRaw := pointAlpha p * gaussianAlpha
  if cfg.alphaThreshold ≤ alphaRaw ∧ j + 1 ≤ lastIdx then
    let alpha := min alphaRaw cfg.clampMaxAlpha
    let Tn := st.T / (1 - alpha)
    let alphaGradFromFeature : Fin F → ℚ :=
      fun d => (features p d * Tn - st.w d / (1 - alpha)) * gradPixel d
    let wNew : Fin F → ℚ := fun d => st.w d + features p d * alpha * Tn
    let alphaGrad : ℚ := ∑ d, alphaGradFromFeature d
    let gp : PointGrad :=
      ⟨alphaGrad * (pointAlpha p * (dpMean p).1),
       alphaGrad * (pointAlpha p * (dpMean p).2),
       alphaGrad * (pointAlpha p * (dpConic p).1),
       alphaGrad * (pointAlpha p * (dpConic p).2.1),
       alphaGrad * (pointAlpha p * (dpConic p).2.2),
       alphaGrad * gaussianAlpha⟩
    let gf : Fin F → ℚ := fun d => alpha * Tn * gradPixel d
    (⟨Tn, wNew,
      Function.update st.gradPoints p ((st.gradPoints p).add gp),
      Function.update st.gradFeatures p (fun d => st.gradFeatures p d + gf d)⟩,
     (gp, gf))
  else (st, (PointGrad.zero, fun _ => 0))

/-- The state part of `backStepFull`. -/
def backStep (F : ℕ) (cfg : RasterConfig) (pointAlpha : ℕ → ℚ)
    (features : ℕ → Fin F → ℚ) (pdfG : ℕ → ℚ) (dpMean : ℕ → ℚ × ℚ)
    (dpConic : ℕ → ℚ × ℚ × ℚ) (gradPixel : Fin F → ℚ) (lastIdx : ℕ)
    (o2p : List ℕ) (st : BwdState F) (j : ℕ) : BwdState F :=
  (backStepFull F cfg pointAlpha features pdfG dpMean dpConic gradPixel lastIdx o2p st j).1

/-- The `(grad_point, grad_feature)` contribution of overlap record `j`
to the global gradient buffers from this pixel, given the pixel state
`st` when the backward loop reaches `j`. -/
def backContrib (F : ℕ) (cfg : RasterConfig) (pointAlpha : ℕ → ℚ)
    (features : ℕ → Fin F → ℚ) (pdfG : ℕ → ℚ) (dpMean : ℕ → ℚ × ℚ)
    (dpConic : ℕ → ℚ × ℚ × ℚ) (gradPixel : Fin F → ℚ) (lastIdx : ℕ)
    (o2p : List ℕ) (st : BwdState F) (j : ℕ) : PointGrad × (Fin F → ℚ) :=
  (backStepFull F cfg pointAlpha features pdfG dpMean dpConic gradPixel lastIdx o2p st j).2

/-- The descending overlap indices `end_offset - 1, …, start_offset`
walked by the backward per-pixel loop. -/
def revRange (startOffset endOffset : ℕ) : List ℕ :=
  (List.range' startOffset (endOffset - startOffset)).reverse

/-- Initial per-pixel backward state: `T_i = 1 - image_alpha[pixel]`,
zero remainder sum, and the caller's gradient buffers. -/
def initBwd (F : ℕ) (accumAlpha : ℚ) (gradPoints0 : ℕ → PointGrad)
    (gradFeatures0 : ℕ → Fin F → ℚ) : BwdState F :=
  ⟨1 - accumAlpha, fun _ => 0, gradPoints0, gradFeatures0⟩

/-- The backward per-pixel loop of `_backward_kernel` over the tile's
effective range, back-to-front. -/
def backRun (F : ℕ) (cfg : RasterConfig) (pointAlpha : ℕ → ℚ)
    (features : ℕ → Fin F → ℚ) (pdfG : ℕ → ℚ) (dpMean : ℕ → ℚ × ℚ)
    (dpConic : ℕ → ℚ × ℚ × ℚ) (gradPixel : Fin F → ℚ) (lastIdx : ℕ)
    (o2p : List ℕ) (startOffset endOffset : ℕ) (st0 : BwdState F) : BwdState F :=
  (revRange startOffset endOffset).foldl
    (backStep F cfg pointAlpha features pdfG dpMean dpConic gradPixel lastIdx o2p) st0

/-- Well-formedness of one emitted record: the point index is in range,
the record's tile lies in that Gaussian's clamped bounding box, and the
key has the normal form `tile_id * 2^32 + depth_bits` with an in-range
tile id. -/
def entryWF (ts W H tilesWide : ℤ) (gs : List Gaussian) (ds : List F32)
    (e : ℤ × ℕ) : Prop :=
  ∃ tx ty, e.2 < gs.length ∧ inBox ts W H (gs.getD e.2 default) tx ty ∧
    0 ≤ tx + ty * tilesWide ∧ tx + ty * tilesWide < 2 ^ 31 ∧
    e.1 = (tx + ty * tilesWide) * 2 ^ 32 + ((ds.getD e.2 default).bits : ℤ)

/-- Number of sorted keys strictly before tile `t`: the start of `t`'s
range in a tile-sorted key array. -/
def tileStartIdx (keys : List ℤ) (t : ℤ) : ℕ :=
  keys.countP (fun k => decide (keyTile k < t))

/-- Number of sorted keys up to tile `t`: the end of `t`'s range in a
tile-sorted key array. -/
def tileStopIdx (keys : List ℤ) (t : ℤ) : ℕ :=
  keys.countP (fun k => decide (keyTile k ≤ t))

/-- The thresholded and clamped alpha computed by the forward per-pixel
loop from the raw `point_alpha * gaussian_alpha` product. -/
def clampedAlpha (cfg : RasterConfig) (a0 : ℚ) : ℚ :=
  min (if a0 < cfg.alphaThreshold then 0 else a0) cfg.clampMaxAlpha

/-- A per-lane density table for a lane of two pixels over two points
(`conic_pdf` values at the four pixel/point pairs): pixel `0` sees
densities `1` and `1/4`, pixel `1` sees `1` for both points. -/
def pdfRun1 : Fin 2 → ℕ → ℚ :=
  fun i p => if i = 0 then (if p = 0 then 1 else 1 / 4) else 1

/-- A second density table agreeing with `pdfRun1` on pixel `0` but with
pixel `1`'s densities changed to `1/4` and `1`. -/
def pdfRun2 : Fin 2 → ℕ → ℚ :=
  fun i p => if i = 0 then (if p = 0 then 1 else 1 / 4)
    else (if p = 0 then 1 / 4 else 1)

/-! Helper lemmas -/

theorem toInt32_eq_self {z : ℤ} (h1 : -(2 ^ 31) ≤ z) (h2 : z < 2 ^ 31) :
    toInt32 z = z := by
  unfold toInt32
  have : (2 ^ 31 + z) % 2 ^ 32 = 2 ^ 31 + z := by
    apply Int.emod_eq_of_lt <;> omega
  omega

theorem toInt64_eq_self {z : ℤ} (h1 : -(2 ^ 63) ≤ z) (h2 : z < 2 ^ 63) :
    toInt64 z = z := by
  unfold toInt64
  have : (2 ^ 63 + z) % 2 ^ 64 = 2 ^ 63 + z := by
    apply Int.emod_eq_of_lt <;> omega
  omega

theorem F32.bits_lt (d : F32) : d.bits < 2 ^ 31 := by
  have h1 := d.exp_le
  have h2 := d.mant_lt
  unfold F32.bits
  omega

theorem F32.scaled_lt_scaled {d1 d2 : F32} (h : d1.bits < d2.bits) :
    d1.scaled < d2.scaled := by
  have hm1 := d1.mant_lt
  have hm2 := d2.mant_lt
  have hexp : d1.exp < d2.exp ∨ (d1.exp = d2.exp ∧ d1.mant < d2.mant) := by
    unfold F32.bits at h
    by_cases he : d1.exp = d2.exp
    · right
      exact ⟨he, by omega⟩
    · left
      by_contra hc
      push_neg at hc
      have : d2.exp + 1 ≤ d1.exp := by omega
      nlinarith [Nat.mul_le_mul_right (2 ^ 23) this]
  unfold F32.scaled
  rcases hexp with he | ⟨he, hm⟩
  · have h20 : ¬ d2.exp = 0 := by omega
    rw [if_neg h20]
    have hX1 : 0 < 2 ^ (d1.exp - 1) := Nat.pos_pow_of_pos _ (by norm_num)
    have hX2 : 0 < 2 ^ (d2.exp - 1) := Nat.pos_pow_of_pos _ (by norm_num)
    rcases Nat.eq_zero_or_pos d1.exp with h0 | h0
    · rw [if_pos h0]
      calc d1.mant < 2 ^ 23 := hm1
        _ ≤ (2 ^ 23 + d2.mant) * 1 := by omega
        _ ≤ (2 ^ 23 + d2.mant) * 2 ^ (d2.exp - 1) := Nat.mul_le_mul_left _ hX2
    · have h10 : ¬ d1.exp = 0 := by omega
      rw [if_neg h10]
      have hpow : 2 ^ (d1.exp - 1 + 1) ≤ 2 ^ (d2.exp - 1) :=
        Nat.pow_le_pow_right (by norm_num) (by omega)
      calc (2 ^ 23 + d1.mant) * 2 ^ (d1.exp - 1)
          < 2 ^ 24 * 2 ^ (d1.exp - 1) :=
            Nat.mul_lt_mul_of_lt_of_le (by omega) le_rfl hX1
        _ = 2 ^ 23 * 2 ^ (d1.exp - 1 + 1) := by ring
        _ ≤ 2 ^ 23 * 2 ^ (d2.exp - 1) := Nat.mul_le_mul_left _ hpow
        _ ≤ (2 ^ 23 + d2.mant) * 2 ^ (d2.exp - 1) :=
            Nat.mul_le_mul_right _ (by omega)
  · rw [he]
    rcases Nat.eq_zero_or_pos d2.exp with h0 | h0
    · rw [if_pos h0, if_pos h0]
      omega
    · have h20 : ¬ d2.exp = 0 := by omega
      rw [if_neg h20, if_neg h20]
      exact Nat.mul_lt_mul_of_lt_of_le (by omega) le_rfl
        (Nat.pos_pow_of_pos _ (by norm_num))

theorem F32.val_le_val {d1 d2 : F32} (h : d1.bits ≤ d2.bits) :
    d1.val ≤ d2.val := by
  unfold F32.val
  have hs : d1.scaled ≤ d2.scaled := by
    rcases Nat.lt_or_ge d1.bits d2.bits with hlt | hge
    · exact le_of_lt (F32.scaled_lt_scaled hlt)
    · have : d1.bits = d2.bits := by omega
      have hd : d1 = d2 := by
        cases d1
        cases d2
        unfold F32.bits at this
        simp_all
        omega
      rw [hd]
  apply div_le_div_of_nonneg_right ?_ (by norm_num)
  exact_mod_cast hs

theorem emittedKey_eq (tilesWide : ℤ) (bits : ℕ) (tx ty : ℤ)
    (hb : bits < 2 ^ 31) (h0 : 0 ≤ tx + ty * tilesWide)
    (h1 : tx + ty * tilesWide < 2 ^ 31) :
    emittedKey tilesWide bits tx ty = (tx + ty * tilesWide) * 2 ^ 32 + bits := by
  unfold emittedKey
  rw [toInt32_eq_self (by omega) (by exact_mod_cast hb)]
  rw [toInt32_eq_self (by omega) h1]
  have hinner : toInt64 ((tx + ty * tilesWide) * 2 ^ 32) = (tx + ty * tilesWide) * 2 ^ 32 :=
    toInt64_eq_self (by nlinarith) (by nlinarith)
  rw [hinner]
  rw [toInt64_eq_self (by nlinarith) (by nlinarith)]
  ring

theorem keyTile_eq (tid : ℤ) (bits : ℕ) (h0 : 0 ≤ tid) (h1 : tid < 2 ^ 31)
    (hb : bits < 2 ^ 32) :
    keyTile (tid * 2 ^ 32 + bits) = tid := by
  unfold keyTile
  have hfd : Int.fdiv (tid * 2 ^ 32 + (bits : ℤ)) (2 ^ 32) = tid := by
    rw [Int.fdiv_eq_ediv _ (by norm_num), add_comm,
      Int.add_mul_ediv_right _ _ (by norm_num : (2 ^ 32 : ℤ) ≠ 0),
      Int.ediv_eq_zero_of_lt (by positivity) (by exact_mod_cast hb)]
    omega
  rw [hfd, toInt32_eq_self (by omega) h1]

/-- The structural facts about the clamped tile bounding box: it lies in
the tile grid and is weakly ordered. -/
theorem box_bounds (ts W H : ℤ) (g : Gaussian) (hts : 0 < ts)
    (hW : 0 ≤ W) (hH : 0 ≤ H) :
    0 ≤ (gaussianTileRanges ts W H g).1.1 ∧
    (gaussianTileRanges ts W H g).2.1 ≤ Int.fdiv W ts ∧
    0 ≤ (gaussianTileRanges ts W H g).1.2 ∧
    (gaussianTileRanges ts W H g).2.2 ≤ Int.fdiv H ts ∧
    (gaussianTileRanges ts W H g).1.1 ≤ (gaussianTileRanges ts W H g).2.1 ∧
    (gaussianTileRanges ts W H g).1.2 ≤ (gaussianTileRanges ts W H g).2.2 := by
  have hWt : 0 ≤ Int.fdiv W ts := Int.fdiv_nonneg hW (le_of_lt hts)
  have hHt : 0 ≤ Int.fdiv H ts := Int.fdiv_nonneg hH (le_of_lt hts)
  have hmbX : (0 : ℚ) ≤ max 0 (g.uvx - max g.radius0 1) := le_max_left _ _
  have hmbY : (0 : ℚ) ≤ max 0 (g.uvy - max g.radius0 1) := le_max_left _ _
  have hfX : 0 ≤ ⌊(max 0 (g.uvx - max g.radius0 1)) / (ts : ℚ)⌋ := by
    rw [Int.floor_nonneg]
    apply div_nonneg hmbX
    exact_mod_cast le_of_lt hts
  have hfY : 0 ≤ ⌊(max 0 (g.uvy - max g.radius0 1)) / (ts : ℚ)⌋ := by
    rw [Int.floor_nonneg]
    apply div_nonneg hmbY
    exact_mod_cast le_of_lt hts
  unfold gaussianTileRanges
  refine ⟨?_, ?_, ?_, ?_, ?_, ?_⟩ <;> simp only [] <;> omega

/-- Tile ids are injective on a grid row range. -/
theorem tid_inj (tw a b a2 b2 : ℤ) (ha : 0 ≤ a) (haw : a < tw)
    (ha2 : 0 ≤ a2) (ha2w : a2 < tw) (h : a + b * tw = a2 + b2 * tw) :
    a = a2 ∧ b = b2 := by
  have htw : 0 < tw := by omega
  have hb : b = b2 := by
    rcases lt_trichotomy b b2 with hlt | heq | hgt
    · exfalso
      have h1 : b + 1 ≤ b2 := by omega
      nlinarith
    · exact heq
    · exfalso
      have h1 : b2 + 1 ≤ b := by omega
      nlinarith
  constructor
  · rw [hb] at h
    omega
  · exact hb

theorem countP_beq_range (n a : ℕ) (h : a < n) :
    (List.range n).countP (fun v => decide (v = a)) = 1 := by
  induction n with
  | zero => omega
  | succ n ih =>
    rw [List.range_succ, List.countP_append]
    rcases Nat.lt_or_ge a n with hlt | hge
    · rw [ih hlt]
      have : ¬ (n = a) := by omega
      simp [List.countP_cons, this]
    · have ha : a = n := by omega
      have h0 : (List.range n).countP (fun v => decide (v = a)) = 0 := by
        rw [List.countP_eq_zero]
        intro x hx
        rw [List.mem_range] at hx
        simp only [decide_eq_true_eq]
        omega
      rw [h0]
      simp [List.countP_cons, ha]

theorem sum_map_indicator (a : ℕ) (l : List ℕ) :
    (l.map (fun u => if u = a then (1 : ℕ) else 0)).sum =
      l.countP (fun u => decide (u = a)) := by
  induction l with
  | nil => simp
  | cons x l ih =>
    rw [List.map_cons, List.sum_cons, List.countP_cons, ih]
    by_cases hx : x = a <;> simp [hx] <;> omega

/-- Normal form of an emitted key for a tile inside a grid of
`tw × th` tiles with at most `2^31` tiles. -/
theorem emittedKey_norm (tw th : ℤ) (d : F32) (tx ty : ℤ)
    (htx : 0 ≤ tx) (htxw : tx < tw) (hty : 0 ≤ ty) (htyh : ty < th)
    (htiles : tw * th ≤ 2 ^ 31) :
    keyTile (emittedKey tw d.bits tx ty) = tx + ty * tw
    ∧ 0 ≤ tx + ty * tw ∧ tx + ty * tw < 2 ^ 31 ∧
    emittedKey tw d.bits tx ty = (tx + ty * tw) * 2 ^ 32 + (d.bits : ℤ) := by
  have hbits := F32.bits_lt d
  have htw0 : 0 ≤ tw := by omega
  have h0 : 0 ≤ tx + ty * tw := add_nonneg htx (mul_nonneg hty htw0)
  have h1 : tx + ty * tw < 2 ^ 31 := by nlinarith
  have hkey := emittedKey_eq tw d.bits tx ty hbits h0 h1
  have hb3 : d.bits < 2 ^ 32 :=
    Nat.lt_of_lt_of_le hbits (Nat.pow_le_pow_right (by norm_num) (by norm_num))
  refine ⟨?_, h0, h1, hkey⟩
  rw [hkey]
  exact keyTile_eq (tx + ty * tw) d.bits h0 h1 hb3

/-- Shape of the records of one box: each targets one box tile, with the
Gaussian's index attached. -/
theorem mem_entriesForBox {tw : ℤ} {bits : ℕ} {x0 y0 x1 y1 : ℤ} {idx : ℕ}
    {e : ℤ × ℕ} (he : e ∈ entriesForBox tw bits x0 y0 x1 y1 idx) :
    ∃ tx ty, x0 ≤ tx ∧ tx < x1 ∧ y0 ≤ ty ∧ ty < y1 ∧
      e = (emittedKey tw bits tx ty, idx) := by
  unfold entriesForBox at he
  simp only [List.mem_flatMap, List.mem_map, List.mem_range] at he
  obtain ⟨u, hu, v, hv, he⟩ := he
  have hux : (u : ℤ) < x1 - x0 := Int.lt_toNat.mp hu
  have hvy : (v : ℤ) < y1 - y0 := Int.lt_toNat.mp hv
  exact ⟨x0 + u, y0 + v, by omega, by omega, by omega, by omega, he.symm⟩

/-- Unfolding of the record predicate on a pair. -/
theorem entryPred_pair (tid : ℤ) (idx : ℕ) (k : ℤ) (j : ℕ) :
    entryPred tid idx (k, j) = true ↔ (keyTile k = tid ∧ j = idx) := by
  unfold entryPred
  exact decide_eq_true_iff

/-- Count of records in one row of a box that target the tile
`(tx, ty)`: one when the row is `ty`'s and `tx` is the row's x
coordinate, zero otherwise. -/
theorem countP_boxRow (tw th : ℤ) (d : F32) (idx : ℕ)
    (x0 y0 x1 y1 tx ty : ℤ) (u : ℕ)
    (hx0 : 0 ≤ x0) (hx1 : x1 ≤ tw) (hy0 : 0 ≤ y0) (hy1 : y1 ≤ th)
    (htiles : tw * th ≤ 2 ^ 31)
    (hxl : x0 ≤ tx) (hxu : tx < x1) (hyl : y0 ≤ ty) (hyu : ty < y1)
    (huz : (u : ℤ) < x1 - x0) :
    List.countP (entryPred (tx + ty * tw) idx)
      (List.map (fun (v : ℕ) => (emittedKey tw d.bits (x0 + (u : ℤ)) (y0 + (v : ℤ)), idx))
        (List.range (y1 - y0).toNat)) =
      if u = (tx - x0).toNat then (1 : ℕ) else 0 := by
  have hu0z : (((tx - x0).toNat : ℕ) : ℤ) = tx - x0 := Int.toNat_of_nonneg (by omega)
  have hv0z : (((ty - y0).toNat : ℕ) : ℤ) = ty - y0 := Int.toNat_of_nonneg (by omega)
  have hv0lt : (ty - y0).toNat < (y1 - y0).toNat := (Int.toNat_lt (by omega)).mpr (by omega)
  have hkt : ∀ v : ℕ, (v : ℤ) < y1 - y0 →
      keyTile (emittedKey tw d.bits (x0 + (u : ℤ)) (y0 + (v : ℤ))) =
        (x0 + (u : ℤ)) + (y0 + (v : ℤ)) * tw := by
    intro v hv
    exact (emittedKey_norm tw th d (x0 + (u : ℤ)) (y0 + (v : ℤ))
      (by omega) (by omega) (by omega) (by omega) htiles).1
  have hbound : ∀ v : ℕ, (v : ℤ) < y1 - y0 →
      ((x0 + (u : ℤ)) + (y0 + (v : ℤ)) * tw = tx + ty * tw ↔
        (u = (tx - x0).toNat ∧ v = (ty - y0).toNat)) := by
    intro v hv
    constructor
    · intro heq
      have := tid_inj tw (x0 + (u : ℤ)) (y0 + (v : ℤ)) tx ty (by omega) (by omega)
        (by omega) (by omega) heq
      omega
    · intro ⟨h1, h2⟩
      subst h1
      subst h2
      rw [hu0z, hv0z]
      ring
  rw [List.countP_map]
  by_cases hcase : u = (tx - x0).toNat
  · rw [if_pos hcase]
    have hcc : List.countP ((entryPred (tx + ty * tw) idx) ∘
          (fun (v : ℕ) => (emittedKey tw d.bits (x0 + (u : ℤ)) (y0 + (v : ℤ)), idx)))
        (List.range (y1 - y0).toNat) =
        List.countP (fun v => decide (v = (ty - y0).toNat)) (List.range (y1 - y0).toNat) := by
      apply List.countP_congr
      intro v hv
      rw [List.mem_range] at hv
      have hvz : (v : ℤ) < y1 - y0 := Int.lt_toNat.mp hv
      show entryPred (tx + ty * tw) idx
          (emittedKey tw d.bits (x0 + (u : ℤ)) (y0 + (v : ℤ)), idx) = true ↔
        decide (v = (ty - y0).toNat) = true
      rw [entryPred_pair, decide_eq_true_iff]
      rw [hkt v hvz, hbound v hvz]
      constructor
      · intro hx
        exact hx.1.2
      · intro hx
        exact ⟨⟨hcase, hx⟩, rfl⟩
    rw [hcc]
    exact countP_beq_range _ _ hv0lt
  · rw [if_neg hcase]
    rw [List.countP_eq_zero]
    intro v hv
    rw [List.mem_range] at hv
    have hvz : (v : ℤ) < y1 - y0 := Int.lt_toNat.mp hv
    show ¬ entryPred (tx + ty * tw) idx
        (emittedKey tw d.bits (x0 + (u : ℤ)) (y0 + (v : ℤ)), idx) = true
    rw [entryPred_pair]
    intro hx
    rw [hkt v hvz, hbound v hvz] at hx
    exact hcase hx.1.1

/-- Exactly one record of a box targets any given tile of the box. -/
theorem countP_entriesForBox (tw th : ℤ) (d : F32) (idx : ℕ)
    (x0 y0 x1 y1 tx ty : ℤ)
    (hx0 : 0 ≤ x0) (hx1 : x1 ≤ tw) (hy0 : 0 ≤ y0) (hy1 : y1 ≤ th)
    (htiles : tw * th ≤ 2 ^ 31)
    (hxl : x0 ≤ tx) (hxu : tx < x1) (hyl : y0 ≤ ty) (hyu : ty < y1) :
    (entriesForBox tw d.bits x0 y0 x1 y1 idx).countP
      (entryPred (tx + ty * tw) idx) = 1 := by
  have hu0lt : (tx - x0).toNat < (x1 - x0).toNat := (Int.toNat_lt (by omega)).mpr (by omega)
  unfold entriesForBox
  rw [List.countP_flatMap]
  have hmap : (List.range (x1 - x0).toNat).map
      ((List.countP (entryPred (tx + ty * tw) idx)) ∘
        (fun (u : ℕ) => (List.range (y1 - y0).toNat).map (fun (v : ℕ) =>
          (emittedKey tw d.bits (x0 + (u : ℤ)) (y0 + (v : ℤ)), idx)))) =
      (List.range (x1 - x0).toNat).map
        (fun u => if u = (tx - x0).toNat then (1 : ℕ) else 0) := by
    apply List.map_congr_left
    intro u hu
    rw [List.mem_range] at hu
    have huz : (u : ℤ) < x1 - x0 := Int.lt_toNat.mp hu
    show List.countP (entryPred (tx + ty * tw) idx)
        (List.map (fun (v : ℕ) => (emittedKey tw d.bits (x0 + (u : ℤ)) (y0 + (v : ℤ)), idx))
          (List.range (y1 - y0).toNat)) =
      if u = (tx - x0).toNat then (1 : ℕ) else 0
    exact countP_boxRow tw th d idx x0 y0 x1 y1 tx ty u
      hx0 hx1 hy0 hy1 htiles hxl hxu hyl hyu huz
  rw [hmap, sum_map_indicator]
  exact countP_beq_range _ _ hu0lt

/-- Exactly one record of a Gaussian targets any given tile of its
clamped bounding box. -/
theorem countP_entriesFor (ts W H : ℤ) (idx : ℕ) (g : Gaussian) (d : F32)
    (tx ty : ℤ) (hts : 0 < ts) (hW : 0 ≤ W) (hH : 0 ≤ H)
    (htiles : Int.fdiv W ts * Int.fdiv H ts ≤ 2 ^ 31)
    (hbox : inBox ts W H g tx ty) :
    (entriesFor ts W H (Int.fdiv W ts) idx g d).countP
      (entryPred (tx + ty * Int.fdiv W ts) idx) = 1 := by
  obtain ⟨hbx0, hbxw, hby0, hbyh, hbxo, hbyo⟩ := box_bounds ts W H g hts hW hH
  obtain ⟨hxl, hxu, hyl, hyu⟩ := hbox
  unfold entriesFor
  exact countP_entriesForBox (Int.fdiv W ts) (Int.fdiv H ts) d idx _ _ _ _ tx ty
    hbx0 hbxw hby0 hbyh htiles hxl hxu hyl hyu

/-- Shape of the records of one Gaussian: each targets one tile of its
clamped bounding box and carries the Gaussian's index. -/
theorem mem_entriesFor {ts W H tw : ℤ} {idx : ℕ} {g : Gaussian} {d : F32}
    {e : ℤ × ℕ} (he : e ∈ entriesFor ts W H tw idx g d) :
    ∃ tx ty, inBox ts W H g tx ty ∧ e = (emittedKey tw d.bits tx ty, idx) := by
  unfold entriesFor at he
  obtain ⟨tx, ty, h1, h2, h3, h4, hee⟩ := mem_entriesForBox he
  exact ⟨tx, ty, ⟨h1, h2, h3, h4⟩, hee⟩

/-- Every record emitted by the key generation pass is well formed. -/
theorem allEntries_wf (ts W H : ℤ) (gs : List Gaussian) (ds : List F32)
    (hts : 0 < ts) (hW : 0 ≤ W) (hH : 0 ≤ H)
    (htiles : Int.fdiv W ts * Int.fdiv H ts ≤ 2 ^ 31) :
    ∀ e ∈ allEntries ts W H (Int.fdiv W ts) gs ds,
      entryWF ts W H (Int.fdiv W ts) gs ds e := by
  intro e he
  unfold allEntries at he
  rw [List.mem_flatMap] at he
  obtain ⟨p, hp, he⟩ := he
  rw [List.mem_enum_iff_getElem?] at hp
  rw [List.getElem?_zip_eq_some] at hp
  obtain ⟨hg, hd⟩ := hp
  obtain ⟨hglen, hgv⟩ := List.getElem?_eq_some_iff.mp hg
  obtain ⟨tx, ty, hbox, hee⟩ := mem_entriesFor he
  have hgD : gs.getD p.1 default = p.2.1 := by
    rw [List.getD_eq_getElem?_getD, hg]
    rfl
  have hdD : ds.getD p.1 default = p.2.2 := by
    rw [List.getD_eq_getElem?_getD, hd]
    rfl
  obtain ⟨hbx0, hbxw, hby0, hbyh, hbxo, hbyo⟩ := box_bounds ts W H p.2.1 hts hW hH
  obtain ⟨hxl, hxu, hyl, hyu⟩ := hbox
  have hnorm := emittedKey_norm (Int.fdiv W ts) (Int.fdiv H ts) p.2.2 tx ty
    (by omega) (by omega) (by omega) (by omega) htiles
  refine ⟨tx, ty, ?_, ?_, hnorm.2.1, hnorm.2.2.1, ?_⟩
  · rw [hee]
    exact hglen
  · rw [hee]
    simp only [hgD]
    exact ⟨hxl, hxu, hyl, hyu⟩
  · rw [hee]
    simp only [hdD]
    exact hnorm.2.2.2

/-- Exactly one record of Gaussian `g` over all emitted records targets
any given tile of `g`'s clamped bounding box. -/
theorem countP_allEntries (ts W H : ℤ) (gs : List Gaussian) (ds : List F32)
    (hts : 0 < ts) (hW : 0 ≤ W) (hH : 0 ≤ H)
    (htiles : Int.fdiv W ts * Int.fdiv H ts ≤ 2 ^ 31)
    (hlen : gs.length = ds.length)
    (g : ℕ) (hg : g < gs.length) (tx ty : ℤ)
    (hbox : inBox ts W H (gs.getD g default) tx ty) :
    (allEntries ts W H (Int.fdiv W ts) gs ds).countP
      (entryPred (tx + ty * Int.fdiv W ts) g) = 1 := by
  unfold allEntries
  rw [List.countP_flatMap]
  have hmap : ((gs.zip ds).enum).map
      ((List.countP (entryPred (tx + ty * Int.fdiv W ts) g)) ∘
        (fun p => entriesFor ts W H (Int.fdiv W ts) p.1 p.2.1 p.2.2)) =
      ((gs.zip ds).enum).map (fun p => if p.1 = g then (1 : ℕ) else 0) := by
    apply List.map_congr_left
    intro p hp
    rw [List.mem_enum_iff_getElem?] at hp
    rw [List.getElem?_zip_eq_some] at hp
    obtain ⟨hgp, hdp⟩ := hp
    rw [Function.comp_apply]
    by_cases hcase : p.1 = g
    · rw [if_pos hcase]
      have hgD : gs.getD g default = p.2.1 := by
        rw [List.getD_eq_getElem?_getD, ← hcase, hgp]
        rfl
      rw [hgD] at hbox
      rw [hcase]
      exact countP_entriesFor ts W H g p.2.1 p.2.2 tx ty hts hW hH htiles hbox
    · rw [if_neg hcase]
      rw [List.countP_eq_zero]
      intro e hee
      obtain ⟨tx2, ty2, hbox2, hee2⟩ := mem_entriesFor hee
      rw [hee2]
      rw [Bool.not_eq_true]
      rw [← Bool.not_eq_true, entryPred_pair]
      intro hx
      exact hcase hx.2
  rw [hmap]
  have henum : ((gs.zip ds).enum).map (fun p => if p.1 = g then (1 : ℕ) else 0) =
      (List.range (gs.zip ds).length).map (fun i => if i = g then (1 : ℕ) else 0) := by
    rw [← List.enum_map_fst (gs.zip ds), List.map_map]
    apply List.map_congr_left
    intro p hp
    rfl
  rw [henum, sum_map_indicator]
  apply countP_beq_range
  rw [List.length_zip]
  omega

/-- In a tile-sorted key list, a downward-closed tile predicate holds
exactly on a prefix, whose length is its count. -/
theorem sorted_prefix_countP (p : ℤ → Bool)
    (hdc : ∀ x y : ℤ, keyTile x ≤ keyTile y → p y = true → p x = true) :
    ∀ keys : List ℤ, keys.Pairwise (fun a b => keyTile a ≤ keyTile b) →
      ∀ i, i < keys.length → (p (keys.getD i 0) = true ↔ i < keys.countP p)
  | [], _, i, hi => by simp at hi
  | x :: rest, hmono, i, hi => by
    rw [List.pairwise_cons] at hmono
    obtain ⟨hx, hrest⟩ := hmono
    rw [List.countP_cons]
    by_cases px : p x = true
    · rw [if_pos px]
      match i with
      | 0 =>
        simp only [List.getD]
        simp [px]
      | j + 1 =>
        have hj : j < rest.length := by
          simp only [List.length_cons] at hi
          omega
        have := sorted_prefix_countP p hdc rest hrest j hj
        simp only [List.getD_cons_succ]
        rw [this]
        omega
    · have hrest0 : rest.countP p = 0 := by
        rw [List.countP_eq_zero]
        intro y hy hpy
        exact px (hdc x y (hx y hy) hpy)
      rw [if_neg px, hrest0]
      match i with
      | 0 =>
        simp only [List.getD]
        simp [px]
      | j + 1 =>
        have hj : j < rest.length := by
          simp only [List.length_cons] at hi
          omega
        simp only [List.getD_cons_succ]
        constructor
        · intro hpy
          exact absurd hpy (by
            intro hc
            have hmem : rest.getD j 0 ∈ rest := by
              rw [List.getD_eq_getElem rest 0 hj]
              exact List.getElem_mem hj
            rw [List.countP_eq_zero] at hrest0
            exact hrest0 _ hmem hc)
        · omega

/-- The keys whose tile equals `t` occupy exactly the index interval
from `tileStartIdx` to `tileStopIdx` in a tile-sorted key list. -/
theorem sorted_tile_interval (keys : List ℤ) (t : ℤ)
    (hmono : keys.Pairwise (fun a b => keyTile a ≤ keyTile b))
    (i : ℕ) (hi : i < keys.length) :
    keyTile (keys.getD i 0) = t ↔
      (tileStartIdx keys t ≤ i ∧ i < tileStopIdx keys t) := by
  have hlt := sorted_prefix_countP (fun k => decide (keyTile k < t))
    (fun x y hxy hy => by
      simp only [decide_eq_true_eq] at hy ⊢
      omega) keys hmono i hi
  have hle := sorted_prefix_countP (fun k => decide (keyTile k ≤ t))
    (fun x y hxy hy => by
      simp only [decide_eq_true_eq] at hy ⊢
      omega) keys hmono i hi
  simp only [decide_eq_true_eq] at hlt hle
  unfold tileStartIdx tileStopIdx
  constructor
  · intro h
    refine ⟨?_, hle.mp (le_of_eq h)⟩
    by_contra hc
    push_neg at hc
    have := hlt.mpr hc
    omega
  · intro hiv
    have h3 : ¬ keyTile (keys.getD i 0) < t := by
      intro hc
      have := hlt.mp hc
      omega
    have h4 : keyTile (keys.getD i 0) ≤ t := hle.mpr hiv.2
    omega

/-- A tile seen at some index is in the tile image of the keys. -/
theorem tile_present (keys : List ℤ) (t : ℤ) (i : ℕ) (hi : i < keys.length)
    (h : keyTile (keys.getD i 0) = t) : t ∈ keys.map keyTile := by
  rw [List.mem_map]
  refine ⟨keys.getD i 0, ?_, h⟩
  rw [List.getD_eq_getElem keys 0 hi]
  exact List.getElem_mem hi

/-- A present tile has a nonempty index interval inside the list. -/
theorem tile_present_bounds (keys : List ℤ) (t : ℤ)
    (hmono : keys.Pairwise (fun a b => keyTile a ≤ keyTile b))
    (hp : t ∈ keys.map keyTile) :
    tileStartIdx keys t < tileStopIdx keys t ∧ tileStopIdx keys t ≤ keys.length := by
  rw [List.mem_map] at hp
  obtain ⟨k, hk, hkt⟩ := hp
  rw [List.mem_iff_getElem] at hk
  obtain ⟨i, hi, hik⟩ := hk
  have hgd : keys.getD i 0 = k := by
    rw [List.getD_eq_getElem keys 0 hi, hik]
  have := (sorted_tile_interval keys t hmono i hi).mp (by rw [hgd, hkt])
  constructor
  · omega
  · unfold tileStopIdx
    exact List.countP_le_length _

/-- The scan loop invariant of `find_ranges_kernel`: after the first `m`
iterations, a tile's start is recorded once the scan has passed the
tile's first key, its end once the scan has passed its last key, and
both fields are zero otherwise. -/
theorem findRanges_loop_inv (keys : List ℤ)
    (hmono : keys.Pairwise (fun a b => keyTile a ≤ keyTile b)) :
    ∀ m, m ≤ keys.length - 1 →
    ∀ t, (List.range m).foldl (findRangesStep keys) (fun _ => (0, 0)) t =
      ((if t ∈ keys.map keyTile ∧ tileStartIdx keys t ≤ m then tileStartIdx keys t else 0),
       (if t ∈ keys.map keyTile ∧ tileStopIdx keys t ≤ m then tileStopIdx keys t else 0)) := by
  intro m
  induction m with
  | zero =>
    intro hm t
    simp only [List.range_zero, List.foldl_nil]
    have h1 : (if t ∈ keys.map keyTile ∧ tileStartIdx keys t ≤ 0
        then tileStartIdx keys t else 0) = 0 := by
      by_cases hc : t ∈ keys.map keyTile ∧ tileStartIdx keys t ≤ 0
      · rw [if_pos hc]
        omega
      · rw [if_neg hc]
    have h2 : (if t ∈ keys.map keyTile ∧ tileStopIdx keys t ≤ 0
        then tileStopIdx keys t else 0) = 0 := by
      by_cases hc : t ∈ keys.map keyTile ∧ tileStopIdx keys t ≤ 0
      · exfalso
        have := tile_present_bounds keys t hmono hc.1
        omega
      · rw [if_neg hc]
    rw [h1, h2]
  | succ m ih =>
    intro hm t
    have hmlt : m + 1 < keys.length := by omega
    have hmlt2 : m < keys.length := by omega
    have ihm := ih (by omega)
    rw [List.range_succ, List.foldl_append, List.foldl_cons, List.foldl_nil]
    generalize hF : (List.range m).foldl (findRangesStep keys) (fun _ => (0, 0)) = F
    rw [hF] at ihm
    have hmono2 : keyTile (keys.getD m 0) ≤ keyTile (keys.getD (m + 1) 0) := by
      have := List.pairwise_iff_get.mp hmono ⟨m, hmlt2⟩ ⟨m + 1, hmlt⟩ (by
        simp only [Fin.mk_lt_mk]
        omega)
      rw [List.getD_eq_getElem keys 0 hmlt2, List.getD_eq_getElem keys 0 hmlt]
      simpa using this
    have hitv := fun (i : ℕ) (hi : i < keys.length) (t2 : ℤ) =>
      sorted_tile_interval keys t2 hmono i hi
    have hstep : findRangesStep keys F m =
        if keyTile (keys.getD m 0) ≠ keyTile (keys.getD (m + 1) 0)
        then setEnd (setStart F (keyTile (keys.getD (m + 1) 0)) (m + 1))
          (keyTile (keys.getD m 0)) (m + 1)
        else F := rfl
    rw [hstep]
    by_cases hc : keyTile (keys.getD m 0) = keyTile (keys.getD (m + 1) 0)
    · rw [if_neg (fun hx => hx hc)]
      rw [ihm t]
      have hsame : ∀ t2 : ℤ, t2 ∈ keys.map keyTile →
          tileStartIdx keys t2 ≠ m + 1 ∧ tileStopIdx keys t2 ≠ m + 1 := by
        intro t2 hp
        obtain ⟨hab, hbl⟩ := tile_present_bounds keys t2 hmono hp
        constructor
        · intro ha
          have h1 : keyTile (keys.getD (m + 1) 0) = t2 :=
            (hitv (m + 1) hmlt t2).mpr (by omega)
          have h2 : keyTile (keys.getD m 0) ≠ t2 := by
            intro hx
            have := (hitv m hmlt2 t2).mp hx
            omega
          rw [hc] at h2
          exact h2 h1
        · intro hb
          have h1 : keyTile (keys.getD m 0) = t2 :=
            (hitv m hmlt2 t2).mpr (by omega)
          have h2 : keyTile (keys.getD (m + 1) 0) ≠ t2 := by
            intro hx
            have := (hitv (m + 1) hmlt t2).mp hx
            omega
          rw [← hc] at h2
          exact h2 h1
      by_cases hp : t ∈ keys.map keyTile
      · obtain ⟨hs1, hs2⟩ := hsame t hp
        have c1 : (t ∈ keys.map keyTile ∧ tileStartIdx keys t ≤ m) ↔
            (t ∈ keys.map keyTile ∧ tileStartIdx keys t ≤ m + 1) := by
          constructor
          · intro hx
            exact ⟨hx.1, by omega⟩
          · intro hx
            exact ⟨hx.1, by omega⟩
        have c2 : (t ∈ keys.map keyTile ∧ tileStopIdx keys t ≤ m) ↔
            (t ∈ keys.map keyTile ∧ tileStopIdx keys t ≤ m + 1) := by
          constructor
          · intro hx
            exact ⟨hx.1, by omega⟩
          · intro hx
            exact ⟨hx.1, by omega⟩
        rw [if_congr c1 rfl rfl, if_congr c2 rfl rfl]
      · rw [if_neg (fun hx => hp hx.1), if_neg (fun hx => hp hx.1),
          if_neg (fun hx => hp hx.1), if_neg (fun hx => hp hx.1)]
    · rw [if_pos hc]
      have hpnext : keyTile (keys.getD (m + 1) 0) ∈ keys.map keyTile :=
        tile_present keys _ (m + 1) hmlt rfl
      have hpprev : keyTile (keys.getD m 0) ∈ keys.map keyTile :=
        tile_present keys _ m hmlt2 rfl
      have hanext : tileStartIdx keys (keyTile (keys.getD (m + 1) 0)) = m + 1 := by
        have h1 := (hitv (m + 1) hmlt (keyTile (keys.getD (m + 1) 0))).mp rfl
        have h2 : ¬ (tileStartIdx keys (keyTile (keys.getD (m + 1) 0)) ≤ m) := by
          intro hx
          have := (hitv m hmlt2 (keyTile (keys.getD (m + 1) 0))).mpr (by omega)
          omega
        omega
      have hbprev : tileStopIdx keys (keyTile (keys.getD m 0)) = m + 1 := by
        have h1 := (hitv m hmlt2 (keyTile (keys.getD m 0))).mp rfl
        have h2 : ¬ (m + 2 ≤ tileStopIdx keys (keyTile (keys.getD m 0))) := by
          intro hx
          have := (hitv (m + 1) hmlt (keyTile (keys.getD m 0))).mpr (by omega)
          omega
        omega
      have hbnext : m + 2 ≤ tileStopIdx keys (keyTile (keys.getD (m + 1) 0)) := by
        have h1 := (hitv (m + 1) hmlt (keyTile (keys.getD (m + 1) 0))).mp rfl
        omega
      have haprev : tileStartIdx keys (keyTile (keys.getD m 0)) ≤ m := by
        have h1 := (hitv m hmlt2 (keyTile (keys.getD m 0))).mp rfl
        omega
      have happ : setEnd (setStart F (keyTile (keys.getD (m + 1) 0)) (m + 1))
          (keyTile (keys.getD m 0)) (m + 1) t =
          if t = keyTile (keys.getD m 0) then
            ((if keyTile (keys.getD m 0) = keyTile (keys.getD (m + 1) 0)
              then (m + 1, (F (keyTile (keys.getD (m + 1) 0))).2)
              else F (keyTile (keys.getD m 0))).1, m + 1)
          else if t = keyTile (keys.getD (m + 1) 0)
            then (m + 1, (F (keyTile (keys.getD (m + 1) 0))).2)
            else F t := rfl
      rw [happ]
      by_cases ht1 : t = keyTile (keys.getD m 0)
      · rw [if_pos ht1, if_neg hc, ht1, ihm (keyTile (keys.getD m 0))]
        have r1 : (if keyTile (keys.getD m 0) ∈ keys.map keyTile ∧
            tileStartIdx keys (keyTile (keys.getD m 0)) ≤ m
            then tileStartIdx keys (keyTile (keys.getD m 0)) else 0) =
            tileStartIdx keys (keyTile (keys.getD m 0)) := if_pos ⟨hpprev, haprev⟩
        have r2 : (if keyTile (keys.getD m 0) ∈ keys.map keyTile ∧
            tileStartIdx keys (keyTile (keys.getD m 0)) ≤ m + 1
            then tileStartIdx keys (keyTile (keys.getD m 0)) else 0) =
            tileStartIdx keys (keyTile (keys.getD m 0)) := if_pos ⟨hpprev, by omega⟩
        have r3 : (if keyTile (keys.getD m 0) ∈ keys.map keyTile ∧
            tileStopIdx keys (keyTile (keys.getD m 0)) ≤ m + 1
            then tileStopIdx keys (keyTile (keys.getD m 0)) else 0) =
            tileStopIdx keys (keyTile (keys.getD m 0)) := if_pos ⟨hpprev, by omega⟩
        rw [r1, r2, r3, hbprev]
      · rw [if_neg ht1]
        by_cases ht2 : t = keyTile (keys.getD (m + 1) 0)
        · rw [if_pos ht2, ht2, ihm (keyTile (keys.getD (m + 1) 0))]
          have r1 : (if keyTile (keys.getD (m + 1) 0) ∈ keys.map keyTile ∧
              tileStopIdx keys (keyTile (keys.getD (m + 1) 0)) ≤ m
              then tileStopIdx keys (keyTile (keys.getD (m + 1) 0)) else 0) = 0 :=
            if_neg (fun hx => absurd hx.2 (by omega))
          have r2 : (if keyTile (keys.getD (m + 1) 0) ∈ keys.map keyTile ∧
              tileStartIdx keys (keyTile (keys.getD (m + 1) 0)) ≤ m + 1
              then tileStartIdx keys (keyTile (keys.getD (m + 1) 0)) else 0) =
              tileStartIdx keys (keyTile (keys.getD (m + 1) 0)) :=
            if_pos ⟨hpnext, by omega⟩
          have r3 : (if keyTile (keys.getD (m + 1) 0) ∈ keys.map keyTile ∧
              tileStopIdx keys (keyTile (keys.getD (m + 1) 0)) ≤ m + 1
              then tileStopIdx keys (keyTile (keys.getD (m + 1) 0)) else 0) = 0 :=
            if_neg (fun hx => absurd hx.2 (by omega))
          rw [r1, r2, r3, hanext]
        · rw [if_neg ht2]
          rw [ihm t]
          by_cases hp : t ∈ keys.map keyTile
          · have hab := tile_present_bounds keys t hmono hp
            have hne1 : tileStartIdx keys t ≠ m + 1 := by
              intro hx
              have := (hitv (m + 1) hmlt t).mpr (by omega)
              exact ht2 this.symm
            have hne2 : tileStopIdx keys t ≠ m + 1 := by
              intro hx
              have := (hitv m hmlt2 t).mpr (by omega)
              exact ht1 this.symm
            have c1 : (t ∈ keys.map keyTile ∧ tileStartIdx keys t ≤ m) ↔
                (t ∈ keys.map keyTile ∧ tileStartIdx keys t ≤ m + 1) := by
              constructor
              · intro hx
                exact ⟨hx.1, by omega⟩
              · intro hx
                exact ⟨hx.1, by omega⟩
            have c2 : (t ∈ keys.map keyTile ∧ tileStopIdx keys t ≤ m) ↔
                (t ∈ keys.map keyTile ∧ tileStopIdx keys t ≤ m + 1) := by
              constructor
              · intro hx
                exact ⟨hx.1, by omega⟩
              · intro hx
                exact ⟨hx.1, by omega⟩
            rw [if_congr c1 rfl rfl, if_congr c2 rfl rfl]
          · rw [if_neg (fun hx => hp hx.1), if_neg (fun hx => hp hx.1),
              if_neg (fun hx => hp hx.1), if_neg (fun hx => hp hx.1)]

/-- Characterization of `find_ranges_kernel` on a tile-sorted key list:
a present tile's row is its index interval, an absent tile's row stays
zero. -/
theorem findRanges_eq (keys : List ℤ) (hne : 0 < keys.length)
    (hmono : keys.Pairwise (fun a b => keyTile a ≤ keyTile b)) (t : ℤ) :
    findRanges keys t =
      if t ∈ keys.map keyTile then (tileStartIdx keys t, tileStopIdx keys t)
      else (0, 0) := by
  have hbase := findRanges_loop_inv keys hmono (keys.length - 1) le_rfl
  have hml : keys.length - 1 < keys.length := by omega
  have hpl : keyTile (keys.getD (keys.length - 1) 0) ∈ keys.map keyTile :=
    tile_present keys _ _ hml rfl
  have hitv := fun (i : ℕ) (hi : i < keys.length) (t2 : ℤ) =>
    sorted_tile_interval keys t2 hmono i hi
  have hmono2 : ∀ i, i < keys.length →
      keyTile (keys.getD i 0) ≤ keyTile (keys.getD (keys.length - 1) 0) := by
    intro i hi
    rcases Nat.lt_or_ge i (keys.length - 1) with hlt | hge
    · have := List.pairwise_iff_get.mp hmono ⟨i, hi⟩ ⟨keys.length - 1, hml⟩ (by
        simp only [Fin.mk_lt_mk]
        omega)
      rw [List.getD_eq_getElem keys 0 hi, List.getD_eq_getElem keys 0 hml]
      simpa using this
    · have hieq : i = keys.length - 1 := by omega
      rw [hieq]
  have hblast : tileStopIdx keys (keyTile (keys.getD (keys.length - 1) 0)) =
      keys.length := by
    unfold tileStopIdx
    have hub : keys.countP (fun k => decide (keyTile k ≤
        keyTile (keys.getD (keys.length - 1) 0))) ≤ keys.length :=
      List.countP_le_length _
    have hall : keys.length - 1 < keys.countP (fun k => decide (keyTile k ≤
        keyTile (keys.getD (keys.length - 1) 0))) := by
      have h1 := sorted_prefix_countP
        (fun k => decide (keyTile k ≤ keyTile (keys.getD (keys.length - 1) 0)))
        (fun x y hxy hy => by
          simp only [decide_eq_true_eq] at hy ⊢
          omega) keys hmono (keys.length - 1) hml
      apply h1.mp
      simp only [decide_eq_true_eq]
      exact le_refl _
    omega
  have halast : tileStartIdx keys (keyTile (keys.getD (keys.length - 1) 0)) ≤
      keys.length - 1 := by
    have := (hitv (keys.length - 1) hml (keyTile (keys.getD (keys.length - 1) 0))).mp rfl
    omega
  have happ : findRanges keys t =
      if t = keyTile (keys.getD (keys.length - 1) 0)
      then ((((List.range (keys.length - 1)).foldl (findRangesStep keys)
          (fun _ => (0, 0))) (keyTile (keys.getD (keys.length - 1) 0))).1, keys.length)
      else ((List.range (keys.length - 1)).foldl (findRangesStep keys)
          (fun _ => (0, 0))) t := rfl
  rw [happ]
  by_cases hts : t = keyTile (keys.getD (keys.length - 1) 0)
  · rw [if_pos hts, hbase (keyTile (keys.getD (keys.length - 1) 0)), hts]
    rw [if_pos ⟨hpl, halast⟩, if_pos hpl, hblast]
  · rw [if_neg hts, hbase t]
    by_cases hp : t ∈ keys.map keyTile
    · obtain ⟨hab, hbl⟩ := tile_present_bounds keys t hmono hp
      have hbt : tileStopIdx keys t ≤ keys.length - 1 := by
        by_contra hcon
        push_neg at hcon
        have hbt2 : tileStopIdx keys t = keys.length := by omega
        have := (hitv (keys.length - 1) hml t).mpr (by omega)
        exact hts this.symm
      have hat : tileStartIdx keys t ≤ keys.length - 1 := by omega
      rw [if_pos ⟨hp, hat⟩, if_pos ⟨hp, hbt⟩, if_pos hp]
    · rw [if_neg (fun hx => hp hx.1), if_neg (fun hx => hp hx.1), if_neg hp]

/-- Reading a list as its `getD` table over its index range. -/
theorem map_getD_range {α : Type} (l : List α) (d : α) :
    (List.range l.length).map (fun k => l.getD k d) = l := by
  apply List.ext_getElem
  · simp
  · intro i h1 h2
    simp only [List.getElem_map, List.getElem_range]
    rw [List.getD_eq_getElem l d h2]

/-- `getD` through a `map`, inside the list's range. -/
theorem getD_map {α β : Type} (l : List α) (f : α → β) (d : β) (d0 : α) (k : ℕ)
    (hk : k < l.length) : (l.map f).getD k d = f (l.getD k d0) := by
  rw [List.getD_eq_getElem _ d (by simpa using hk), List.getElem_map,
    List.getD_eq_getElem _ d0 hk]

/-- An in-range `getD` is a member. -/
theorem getD_mem {α : Type} (l : List α) (d : α) (k : ℕ) (hk : k < l.length) :
    l.getD k d ∈ l := by
  rw [List.getD_eq_getElem l d hk]
  exact List.getElem_mem hk

/-- Counting over positions equals counting over elements. -/
theorem countP_range_getD {α : Type} (l : List α) (d : α) (p : α → Bool) :
    (List.range l.length).countP (fun k => p (l.getD k d)) = l.countP p := by
  conv_rhs => rw [← map_getD_range l d, List.countP_map]
  rfl

/-- The sorted records are a permutation of the emitted records. -/
theorem sortedEntries_perm (ts W H tw : ℤ) (gs : List Gaussian) (ds : List F32) :
    (sortedEntries ts W H tw gs ds).Perm (allEntries ts W H tw gs ds) :=
  List.mergeSort_perm _ _

/-- The sorted records are pairwise ordered by key. -/
theorem sortedEntries_pairwise (ts W H tw : ℤ) (gs : List Gaussian) (ds : List F32) :
    (sortedEntries ts W H tw gs ds).Pairwise (fun a b => a.1 ≤ b.1) := by
  have h := @List.sorted_mergeSort (ℤ × ℕ) (fun a b => decide (a.1 ≤ b.1))
    (fun a b c hab hbc => by
      rw [decide_eq_true_iff] at hab hbc ⊢
      omega)
    (fun a b => by
      rcases le_total a.1 b.1 with h | h
      · simp [h]
      · simp [h])
    (allEntries ts W H tw gs ds)
  unfold sortedEntries
  exact h.imp (fun hab => decide_eq_true_iff.mp hab)

/-- Every sorted record is well formed. -/
theorem sortedEntries_wf (ts W H : ℤ) (gs : List Gaussian) (ds : List F32)
    (hts : 0 < ts) (hW : 0 ≤ W) (hH : 0 ≤ H)
    (htiles : Int.fdiv W ts * Int.fdiv H ts ≤ 2 ^ 31) :
    ∀ e ∈ sortedEntries ts W H (Int.fdiv W ts) gs ds,
      entryWF ts W H (Int.fdiv W ts) gs ds e := by
  intro e he
  exact allEntries_wf ts W H gs ds hts hW hH htiles e
    ((sortedEntries_perm ts W H (Int.fdiv W ts) gs ds).mem_iff.mp he)

/-- Unpacking of a well-formed record, together with its key's tile. -/
theorem entryWF_keyTile (ts W H tw : ℤ) (gs : List Gaussian) (ds : List F32)
    (e : ℤ × ℕ) (h : entryWF ts W H tw gs ds e) :
    ∃ tx ty, e.2 < gs.length ∧ inBox ts W H (gs.getD e.2 default) tx ty ∧
      0 ≤ tx + ty * tw ∧ tx + ty * tw < 2 ^ 31 ∧
      e.1 = (tx + ty * tw) * 2 ^ 32 + ((ds.getD e.2 default).bits : ℤ) ∧
      keyTile e.1 = tx + ty * tw := by
  obtain ⟨tx, ty, h1, h2, h3, h4, h5⟩ := h
  refine ⟨tx, ty, h1, h2, h3, h4, h5, ?_⟩
  rw [h5]
  exact keyTile_eq _ _ h3 h4
    (Nat.lt_of_lt_of_le (F32.bits_lt _) (by norm_num))

/-- The sorted key array is tile-monotone. -/
theorem sorted_keys_mono (ts W H : ℤ) (gs : List Gaussian) (ds : List F32)
    (hts : 0 < ts) (hW : 0 ≤ W) (hH : 0 ≤ H)
    (htiles : Int.fdiv W ts * Int.fdiv H ts ≤ 2 ^ 31) :
    ((sortedEntries ts W H (Int.fdiv W ts) gs ds).map Prod.fst).Pairwise
      (fun a b => keyTile a ≤ keyTile b) := by
  rw [List.pairwise_map]
  have hp := sortedEntries_pairwise ts W H (Int.fdiv W ts) gs ds
  have hwf := sortedEntries_wf ts W H gs ds hts hW hH htiles
  refine List.Pairwise.imp_of_mem ?_ hp
  intro a b ha hb hab
  obtain ⟨txa, tya, _, _, h3a, h4a, h5a, h6a⟩ :=
    entryWF_keyTile ts W H _ gs ds a (hwf a ha)
  obtain ⟨txb, tyb, _, _, h3b, h4b, h5b, h6b⟩ :=
    entryWF_keyTile ts W H _ gs ds b (hwf b hb)
  rw [h6a, h6b]
  have hba := F32.bits_lt (ds.getD a.2 default)
  have hbb := F32.bits_lt (ds.getD b.2 default)
  omega

/-- Each Gaussian's overlap count is non-negative. -/
theorem tileCount_nonneg (ts W H : ℤ) (g : Gaussian) (hts : 0 < ts)
    (hW : 0 ≤ W) (hH : 0 ≤ H) : 0 ≤ tileCount ts W H g := by
  obtain ⟨_, _, _, _, h5, h6⟩ := box_bounds ts W H g hts hW hH
  unfold tileCount
  exact mul_nonneg (by omega) (by omega)

/-- A Gaussian with a tile in its box has a positive overlap count. -/
theorem tileCount_pos (ts W H : ℤ) (g : Gaussian) (tx ty : ℤ)
    (hbox : inBox ts W H g tx ty) : 1 ≤ tileCount ts W H g := by
  obtain ⟨h1, h2, h3, h4⟩ := hbox
  have ha : 1 ≤ (gaussianTileRanges ts W H g).2.1 - (gaussianTileRanges ts W H g).1.1 := by
    omega
  have hb : 1 ≤ (gaussianTileRanges ts W H g).2.2 - (gaussianTileRanges ts W H g).1.2 := by
    omega
  show 1 ≤ ((gaussianTileRanges ts W H g).2.1 - (gaussianTileRanges ts W H g).1.1) *
    ((gaussianTileRanges ts W H g).2.2 - (gaussianTileRanges ts W H g).1.2)
  nlinarith

/-- If some Gaussian of the list has a tile in its box, the total
overlap is positive. -/
theorem totalOverlap_pos (ts W H : ℤ) (gs : List Gaussian)
    (hts : 0 < ts) (hW : 0 ≤ W) (hH : 0 ≤ H)
    (g : ℕ) (hg : g < gs.length) (tx ty : ℤ)
    (hbox : inBox ts W H (gs.getD g default) tx ty) :
    0 < totalOverlap ts W H gs := by
  have hmem : tileCount ts W H (gs.getD g default) ∈ gs.map (tileCount ts W H) :=
    List.mem_map_of_mem _ (getD_mem gs default g hg)
  have hall : ∀ x ∈ gs.map (tileCount ts W H), (0 : ℤ) ≤ x := by
    intro x hx
    rw [List.mem_map] at hx
    obtain ⟨g2, hg2, hgx⟩ := hx
    rw [← hgx]
    exact tileCount_nonneg ts W H g2 hts hW hH
  have hle := List.single_le_sum hall _ hmem
  have h1 := tileCount_pos ts W H (gs.getD g default) tx ty hbox
  unfold totalOverlap
  omega

/-- On positive total overlap the tile mapper takes the sort branch. -/
theorem mapToTiles_pos_eq (ts W H : ℤ) (gs : List Gaussian) (ds : List F32)
    (hpos : 0 < totalOverlap ts W H gs) :
    mapToTiles ts W H gs ds =
      ((sortedEntries ts W H (Int.fdiv W ts) gs ds).map Prod.snd,
       findRanges ((sortedEntries ts W H (Int.fdiv W ts) gs ds).map Prod.fst)) := by
  unfold mapToTiles
  rw [if_pos hpos]

/-- The zero-length key array produces a table of zero rows. -/
theorem findRanges_nil (t : ℤ) : findRanges [] t = (0, 0) := by
  unfold findRanges setEnd
  simp

/-- A predicate preserved by each step is preserved by a fold. -/
theorem foldl_pres {α β : Type} (P : α → Prop) (f : α → β → α) :
    ∀ (l : List β) (a : α), (∀ a2 b, P a2 → P (f a2 b)) → P a → P (l.foldl f a)
  | [], _, _, ha => ha
  | x :: xs, a, h, ha => foldl_pres P f xs (f a x) h (h a x ha)

/-- A fold whose every step is the identity returns its start state. -/
theorem foldl_fix {α β : Type} (f : α → β → α) :
    ∀ (l : List β) (a : α), (∀ a2 b, f a2 b = a2) → l.foldl f a = a
  | [], _, _ => rfl
  | x :: xs, a, h => by
    rw [List.foldl_cons, h a x]
    exact foldl_fix f xs a h

/-- Explicit form of the forward per-pixel step. -/
theorem pixelStep_cases (tp F : ℕ) (cfg : RasterConfig) (pdf : Fin tp → ℕ → ℚ)
    (pointAlpha : ℕ → ℚ) (features : ℕ → Fin F → ℚ) (p j : ℕ)
    (st : LaneState tp F) (i : Fin tp) :
    pixelStep tp F cfg pdf pointAlpha features p j st i =
      if 1 - cfg.saturateThreshold <
          st.T i * (1 - clampedAlpha cfg (pointAlpha p * pdf i p)) then
        { T := Function.update st.T i
            (st.T i * (1 - clampedAlpha cfg (pointAlpha p * pdf i p))),
          accum := Function.update st.accum i
            (fun d => st.accum i d +
              features p d * clampedAlpha cfg (pointAlpha p * pdf i p) * st.T i),
          lastIdx := j + 1,
          saturated := false }
      else st := rfl

/-- The thresholded, clamped alpha lies in `[0, clamp_max_alpha]`. -/
theorem clampedAlpha_bounds (cfg : RasterConfig) (a0 : ℚ)
    (ha0 : 0 ≤ a0) (hclamp : 0 ≤ cfg.clampMaxAlpha) :
    0 ≤ clampedAlpha cfg a0 ∧ clampedAlpha cfg a0 ≤ cfg.clampMaxAlpha := by
  unfold clampedAlpha
  refine ⟨le_min ?_ hclamp, min_le_right _ _⟩
  by_cases h : a0 < cfg.alphaThreshold
  · rw [if_pos h]
  · rw [if_neg h]
    exact ha0

/-- The forward per-pixel step preserves the transmittance window
`1 - saturate_threshold ≤ T ≤ 1` of every pixel of the lane. -/
theorem pixelStep_T_inv (tp F : ℕ) (cfg : RasterConfig) (pdf : Fin tp → ℕ → ℚ)
    (pointAlpha : ℕ → ℚ) (features : ℕ → Fin F → ℚ) (p j : ℕ)
    (st : LaneState tp F) (i : Fin tp)
    (hpa : 0 ≤ pointAlpha p) (hpdf : 0 ≤ pdf i p)
    (hclamp : 0 ≤ cfg.clampMaxAlpha ∧ cfg.clampMaxAlpha < 1)
    (hsat : cfg.saturateThreshold ≤ 1)
    (hinv : ∀ i2, 1 - cfg.saturateThreshold ≤ st.T i2 ∧ st.T i2 ≤ 1) :
    ∀ i2, 1 - cfg.saturateThreshold ≤
        (pixelStep tp F cfg pdf pointAlpha features p j st i).T i2 ∧
      (pixelStep tp F cfg pdf pointAlpha features p j st i).T i2 ≤ 1 := by
  intro i2
  have halpha := clampedAlpha_bounds cfg (pointAlpha p * pdf i p)
    (mul_nonneg hpa hpdf) hclamp.1
  rw [pixelStep_cases]
  by_cases hc : 1 - cfg.saturateThreshold <
      st.T i * (1 - clampedAlpha cfg (pointAlpha p * pdf i p))
  · rw [if_pos hc]
    by_cases hi : i2 = i
    · subst hi
      show 1 - cfg.saturateThreshold ≤ Function.update st.T i2 _ i2 ∧
        Function.update st.T i2 _ i2 ≤ 1
      rw [Function.update_same]
      have hTi := hinv i2
      constructor
      · exact le_of_lt hc
      · nlinarith [halpha.1, halpha.2, hTi.1, hTi.2, hclamp.2]
    · show 1 - cfg.saturateThreshold ≤ Function.update st.T i _ i2 ∧
        Function.update st.T i _ i2 ≤ 1
      rw [Function.update_noteq hi]
      exact hinv i2
  · rw [if_neg hc]
    exact hinv i2

/-- Per-Gaussian processing preserves the transmittance window. -/
theorem processGauss_T_inv (tp F : ℕ) (cfg : RasterConfig) (pdf : Fin tp → ℕ → ℚ)
    (pointAlpha : ℕ → ℚ) (features : ℕ → Fin F → ℚ) (o2p : List ℕ)
    (st : LaneState tp F) (j : ℕ)
    (hpa : ∀ p2, 0 ≤ pointAlpha p2) (hpdf : ∀ i2 p2, 0 ≤ pdf i2 p2)
    (hclamp : 0 ≤ cfg.clampMaxAlpha ∧ cfg.clampMaxAlpha < 1)
    (hsat : cfg.saturateThreshold ≤ 1)
    (hinv : ∀ i2, 1 - cfg.saturateThreshold ≤ st.T i2 ∧ st.T i2 ≤ 1) :
    ∀ i2, 1 - cfg.saturateThreshold ≤
        (processGauss tp F cfg pdf pointAlpha features o2p st j).T i2 ∧
      (processGauss tp F cfg pdf pointAlpha features o2p st j).T i2 ≤ 1 := by
  unfold processGauss
  refine foldl_pres
    (fun st2 => ∀ i2, 1 - cfg.saturateThreshold ≤ st2.T i2 ∧ st2.T i2 ≤ 1)
    (pixelStep tp F cfg pdf pointAlpha features (o2p.getD j 0) j)
    (List.finRange tp) { st with saturated := true } ?_ hinv
  intro a b hP
  exact pixelStep_T_inv tp F cfg pdf pointAlpha features
    (o2p.getD j 0) j a b (hpa (o2p.getD j 0)) (hpdf b (o2p.getD j 0))
    hclamp hsat hP

/-- The forward lane loop preserves the transmittance window. -/
theorem laneRun_T_inv (tp F : ℕ) (cfg : RasterConfig) (pdf : Fin tp → ℕ → ℚ)
    (pointAlpha : ℕ → ℚ) (features : ℕ → Fin F → ℚ) (o2p : List ℕ)
    (hpa : ∀ p2, 0 ≤ pointAlpha p2) (hpdf : ∀ i2 p2, 0 ≤ pdf i2 p2)
    (hclamp : 0 ≤ cfg.clampMaxAlpha ∧ cfg.clampMaxAlpha < 1)
    (hsat : cfg.saturateThreshold ≤ 1) :
    ∀ (l : List ℕ) (st : LaneState tp F),
      (∀ i2, 1 - cfg.saturateThreshold ≤ st.T i2 ∧ st.T i2 ≤ 1) →
      ∀ i2, 1 - cfg.saturateThreshold ≤
          (laneRun tp F cfg pdf pointAlpha features o2p l st).T i2 ∧
        (laneRun tp F cfg pdf pointAlpha features o2p l st).T i2 ≤ 1 := by
  intro l
  induction l with
  | nil =>
    intro st hinv
    exact hinv
  | cons j js ih =>
    intro st hinv
    show ∀ i2, 1 - cfg.saturateThreshold ≤
        (if st.saturated then st
         else laneRun tp F cfg pdf pointAlpha features o2p js
           (processGauss tp F cfg pdf pointAlpha features o2p st j)).T i2 ∧
      (if st.saturated then st
       else laneRun tp F cfg pdf pointAlpha features o2p js
         (processGauss tp F cfg pdf pointAlpha features o2p st j)).T i2 ≤ 1
    by_cases hs : st.saturated
    · rw [if_pos hs]
      exact hinv
    · rw [if_neg hs]
      exact ih _ (processGauss_T_inv tp F cfg pdf pointAlpha features o2p st j
        hpa hpdf hclamp hsat hinv)

/-- A step of the forward per-pixel loop at another pixel leaves a
pixel's transmittance and feature row unchanged. -/
theorem pixelStep_other (tp F : ℕ) (cfg : RasterConfig) (pdf : Fin tp → ℕ → ℚ)
    (pointAlpha : ℕ → ℚ) (features : ℕ → Fin F → ℚ) (p j : ℕ)
    (st : LaneState tp F) (i i2 : Fin tp) (hne : i2 ≠ i) :
    (pixelStep tp F cfg pdf pointAlpha features p j st i).T i2 = st.T i2 ∧
    (pixelStep tp F cfg pdf pointAlpha features p j st i).accum i2 = st.accum i2 := by
  rw [pixelStep_cases]
  by_cases hc : 1 - cfg.saturateThreshold <
      st.T i * (1 - clampedAlpha cfg (pointAlpha p * pdf i p))
  · rw [if_pos hc]
    exact ⟨Function.update_noteq hne _ _, Function.update_noteq hne _ _⟩
  · rw [if_neg hc]
    exact ⟨rfl, rfl⟩

/-- The step for pixel `i` reads only `T i` (with the raw alpha) for its
condition and writes `T i` and `accum i` from their current values. -/
theorem pixelStep_T_self (tp F : ℕ) (cfg : RasterConfig) (pdf : Fin tp → ℕ → ℚ)
    (pointAlpha : ℕ → ℚ) (features : ℕ → Fin F → ℚ) (p j : ℕ)
    (st : LaneState tp F) (i : Fin tp) :
    (pixelStep tp F cfg pdf pointAlpha features p j st i).T i =
      (if 1 - cfg.saturateThreshold <
          st.T i * (1 - clampedAlpha cfg (pointAlpha p * pdf i p))
       then st.T i * (1 - clampedAlpha cfg (pointAlpha p * pdf i p))
       else st.T i) := by
  rw [pixelStep_cases]
  by_cases hc : 1 - cfg.saturateThreshold <
      st.T i * (1 - clampedAlpha cfg (pointAlpha p * pdf i p))
  · rw [if_pos hc, if_pos hc]
    exact Function.update_same ..
  · rw [if_neg hc, if_neg hc]

/-- The feature-row analogue of `pixelStep_T_self`. -/
theorem pixelStep_accum_self (tp F : ℕ) (cfg : RasterConfig) (pdf : Fin tp → ℕ → ℚ)
    (pointAlpha : ℕ → ℚ) (features : ℕ → Fin F → ℚ) (p j : ℕ)
    (st : LaneState tp F) (i : Fin tp) :
    (pixelStep tp F cfg pdf pointAlpha features p j st i).accum i =
      (if 1 - cfg.saturateThreshold <
          st.T i * (1 - clampedAlpha cfg (pointAlpha p * pdf i p))
       then (fun d => st.accum i d +
         features p d * clampedAlpha cfg (pointAlpha p * pdf i p) * st.T i)
       else st.accum i) := by
  rw [pixelStep_cases]
  by_cases hc : 1 - cfg.saturateThreshold <
      st.T i * (1 - clampedAlpha cfg (pointAlpha p * pdf i p))
  · rw [if_pos hc, if_pos hc]
    exact Function.update_same ..
  · rw [if_neg hc, if_neg hc]

/-- Two lane states agreeing at pixel `i`, stepped under densities that
agree at pixel `i`, still agree at pixel `i`. -/
theorem pixelStep_self_eq (tp F : ℕ) (cfg : RasterConfig)
    (pdf1 pdf2 : Fin tp → ℕ → ℚ) (pointAlpha : ℕ → ℚ)
    (features : ℕ → Fin F → ℚ) (p j : ℕ) (st1 st2 : LaneState tp F)
    (i : Fin tp) (hpdf : pdf1 i p = pdf2 i p)
    (hT : st1.T i = st2.T i) (hA : st1.accum i = st2.accum i) :
    (pixelStep tp F cfg pdf1 pointAlpha features p j st1 i).T i =
      (pixelStep tp F cfg pdf2 pointAlpha features p j st2 i).T i ∧
    (pixelStep tp F cfg pdf1 pointAlpha features p j st1 i).accum i =
      (pixelStep tp F cfg pdf2 pointAlpha features p j st2 i).accum i := by
  rw [pixelStep_T_self, pixelStep_T_self, pixelStep_accum_self,
    pixelStep_accum_self, hpdf, hT, hA]
  exact ⟨rfl, rfl⟩

/-- The per-pixel agreement of `pixelStep_self_eq` lifted through the
lane's per-pixel fold. -/
theorem foldsteps_local (tp F : ℕ) (cfg : RasterConfig)
    (pdf1 pdf2 : Fin tp → ℕ → ℚ) (pointAlpha : ℕ → ℚ)
    (features : ℕ → Fin F → ℚ) (p j : ℕ) (i : Fin tp)
    (hpdf : pdf1 i p = pdf2 i p) :
    ∀ (l : List (Fin tp)) (st1 st2 : LaneState tp F),
      st1.T i = st2.T i → st1.accum i = st2.accum i →
      (l.foldl (pixelStep tp F cfg pdf1 pointAlpha features p j) st1).T i =
        (l.foldl (pixelStep tp F cfg pdf2 pointAlpha features p j) st2).T i ∧
      (l.foldl (pixelStep tp F cfg pdf1 pointAlpha features p j) st1).accum i =
        (l.foldl (pixelStep tp F cfg pdf2 pointAlpha features p j) st2).accum i := by
  intro l
  induction l with
  | nil =>
    intro st1 st2 hT hA
    exact ⟨hT, hA⟩
  | cons x xs ih =>
    intro st1 st2 hT hA
    rw [List.foldl_cons, List.foldl_cons]
    by_cases hx : x = i
    · subst hx
      obtain ⟨h1, h2⟩ := pixelStep_self_eq tp F cfg pdf1 pdf2 pointAlpha
        features p j st1 st2 x hpdf hT hA
      exact ih _ _ h1 h2
    · have hne : i ≠ x := fun hcc => hx hcc.symm
      obtain ⟨h1a, h2a⟩ := pixelStep_other tp F cfg pdf1 pointAlpha features
        p j st1 x i hne
      obtain ⟨h1b, h2b⟩ := pixelStep_other tp F cfg pdf2 pointAlpha features
        p j st2 x i hne
      exact ih _ _ (by rw [h1a, h1b, hT]) (by rw [h2a, h2b, hA])

/-- Outside the gate the backward step contributes nothing and leaves
the pixel state unchanged. -/
theorem backStepFull_no_grad (F : ℕ) (cfg : RasterConfig) (pointAlpha : ℕ → ℚ)
    (features : ℕ → Fin F → ℚ) (pdfG : ℕ → ℚ) (dpMean : ℕ → ℚ × ℚ)
    (dpConic : ℕ → ℚ × ℚ × ℚ) (gradPixel : Fin F → ℚ) (lastIdx : ℕ)
    (o2p : List ℕ) (st : BwdState F) (j : ℕ)
    (h : ¬ (cfg.alphaThreshold ≤ pointAlpha (o2p.getD j 0) * pdfG (o2p.getD j 0) ∧
      j + 1 ≤ lastIdx)) :
    backStepFull F cfg pointAlpha features pdfG dpMean dpConic gradPixel
      lastIdx o2p st j = (st, (PointGrad.zero, fun _ => 0)) := by
  simp only [backStepFull]
  rw [if_neg h]

/-- Unfolded form of the per-Gaussian tile bounding box. -/
theorem gaussianTileRanges_eq (ts W H : ℤ) (g : Gaussian) :
    gaussianTileRanges ts W H g =
      ((min ⌊max 0 (g.uvx - max g.radius0 1) / (ts : ℚ)⌋ (Int.fdiv W ts),
        min ⌊max 0 (g.uvy - max g.radius0 1) / (ts : ℚ)⌋ (Int.fdiv H ts)),
       (min (max (⌊(g.uvx + max g.radius0 1) / (ts : ℚ)⌋ + 1)
          (min ⌊max 0 (g.uvx - max g.radius0 1) / (ts : ℚ)⌋ (Int.fdiv W ts) + 1))
          (Int.fdiv W ts),
        min (max (⌊(g.uvy + max g.radius0 1) / (ts : ℚ)⌋ + 1)
          (min ⌊max 0 (g.uvy - max g.radius0 1) / (ts : ℚ)⌋ (Int.fdiv H ts) + 1))
          (Int.fdiv H ts))) := rfl

/-- One axis of the clamped tile box is non-collapsed exactly when the
Gaussian's lower pixel bound lies before the axis length, provided the
length is tile-aligned. -/
theorem tile_axis_pos (ts L : ℤ) (u r : ℚ) (hts : 0 < ts) (hLd : ts ∣ L)
    (hL : 0 < L) :
    1 ≤ min (max (⌊(u + r) / (ts : ℚ)⌋ + 1)
        (min ⌊max 0 (u - r) / (ts : ℚ)⌋ (Int.fdiv L ts) + 1)) (Int.fdiv L ts) -
      min ⌊max 0 (u - r) / (ts : ℚ)⌋ (Int.fdiv L ts) ↔ u - r < (L : ℚ) := by
  have htsQ : (0 : ℚ) < (ts : ℚ) := by exact_mod_cast hts
  have hLe : (ts : ℤ) * (L / ts) = L := Int.mul_ediv_cancel' hLd
  have hLQ : ((L / ts : ℤ) : ℚ) * (ts : ℚ) = (L : ℚ) := by
    have hc := congrArg (fun z : ℤ => (z : ℚ)) hLe
    push_cast at hc
    linarith
  have hfd : Int.fdiv L ts = L / ts := Int.fdiv_eq_ediv L (le_of_lt hts)
  have hkey : ⌊max 0 (u - r) / (ts : ℚ)⌋ < L / ts ↔ u - r < (L : ℚ) := by
    rw [Int.floor_lt, div_lt_iff htsQ]
    constructor
    · intro hx
      calc u - r ≤ max 0 (u - r) := le_max_right _ _
        _ < ((L / ts : ℤ) : ℚ) * (ts : ℚ) := hx
        _ = (L : ℚ) := hLQ
    · intro hx
      have h0L : (0 : ℚ) < (L : ℚ) := by exact_mod_cast hL
      calc max 0 (u - r) < (L : ℚ) := max_lt h0L hx
        _ = ((L / ts : ℤ) : ℚ) * (ts : ℚ) := hLQ.symm
  rw [hfd, ← hkey]
  omega

/-- C4: for a tile of the grid, the emitted 64-bit sort key is
non-negative with the unsigned tile id `tx + ty * tiles_wide` in its
upper 32 bits and the depth's IEEE-754 bit pattern in its lower
32 bits. -/
theorem sort_key_layout (tw th : ℤ) (d : F32) (tx ty : ℤ)
    (htx : 0 ≤ tx) (htxw : tx < tw) (hty : 0 ≤ ty) (htyh : ty < th)
    (htiles : tw * th ≤ 2 ^ 31) :
    0 ≤ emittedKey tw d.bits tx ty ∧
    (emittedKey tw d.bits tx ty).toNat / 2 ^ 32 = (tx + ty * tw).toNat ∧
    (emittedKey tw d.bits tx ty).toNat % 2 ^ 32 = d.bits := by
  obtain ⟨hkt, h0, h1, hkey⟩ := emittedKey_norm tw th d tx ty htx htxw hty htyh htiles
  have hb := F32.bits_lt d
  omega

/-- C4 witness. -/
theorem sort_key_layout_witness :
    (0 : ℤ) ≤ 1 ∧ (1 : ℤ) < 2 ∧ (0 : ℤ) ≤ 0 ∧ (0 : ℤ) < 1 ∧
      (2 : ℤ) * 1 ≤ 2 ^ 31 ∧
    (0 ≤ emittedKey 2 f32One.bits 1 0 ∧
      (emittedKey 2 f32One.bits 1 0).toNat / 2 ^ 32 = ((1 : ℤ) + 0 * 2).toNat ∧
      (emittedKey 2 f32One.bits 1 0).toNat % 2 ^ 32 = f32One.bits) :=
  ⟨by norm_num, by norm_num, le_refl 0, by norm_num, by norm_num,
    sort_key_layout 2 1 f32One 1 0 (by norm_num) (by norm_num) (le_refl 0)
      (by norm_num) (by norm_num)⟩

/-- C10: with zero total overlap (in particular with no Gaussians) the
tile mapper returns the empty overlap list and the zero-filled range
table. -/
theorem empty_overlap_empty_output (ts W H : ℤ) (gs : List Gaussian)
    (ds : List F32) (h : gs = [] ∨ totalOverlap ts W H gs = 0) :
    (mapToTiles ts W H gs ds).1 = [] ∧
    ∀ t, (mapToTiles ts W H gs ds).2 t = (0, 0) := by
  have hz : ¬ 0 < totalOverlap ts W H gs := by
    rcases h with h | h
    · rw [h]
      show ¬ 0 < (([] : List Gaussian).map (tileCount ts W H)).sum
      simp
    · rw [h]
      exact lt_irrefl 0
  unfold mapToTiles
  rw [if_neg hz]
  exact ⟨rfl, fun t => rfl⟩

/-- C10 witness. -/
theorem empty_overlap_empty_output_witness :
    (mapToTiles 16 16 16 [] []).1 = [] ∧ (mapToTiles 16 16 16 [] []).2 0 = (0, 0) :=
  ⟨(empty_overlap_empty_output 16 16 16 [] [] (Or.inl rfl)).1,
   (empty_overlap_empty_output 16 16 16 [] [] (Or.inl rfl)).2 0⟩

/-- C3 counterexample: a Gaussian fully off-screen to the left (its
pixel bounding box ends at `-99 < 0`) still emits one overlap, so
`count ≥ 1` does not hold only for on-screen Gaussians. -/
theorem offscreen_gaussian_counted :
    tileCount 16 32 32 ⟨-100, 8, 1⟩ = 1 ∧
    (-100 : ℚ) + max (1 : ℚ) 1 < 0 := by
  have hf : Int.fdiv (32 : ℤ) 16 = 2 := by decide
  have hr : gaussianTileRanges 16 32 32 ⟨-100, 8, 1⟩ = ((0, 0), (1, 1)) := by
    rw [gaussianTileRanges_eq, hf]
    norm_num
  constructor
  · show ((gaussianTileRanges 16 32 32 ⟨-100, 8, 1⟩).2.1 -
        (gaussianTileRanges 16 32 32 ⟨-100, 8, 1⟩).1.1) *
      ((gaussianTileRanges 16 32 32 ⟨-100, 8, 1⟩).2.2 -
        (gaussianTileRanges 16 32 32 ⟨-100, 8, 1⟩).1.2) = 1
    rw [hr]
    decide
  · norm_num

/-- C3 (amended): on a tile-aligned image the overlap count is positive
exactly when the Gaussian's lower pixel bounds lie before the image
extents; Gaussians off-screen only to the left or top still emit
overlaps. -/
theorem tileCount_pos_iff (ts W H : ℤ) (g : Gaussian) (hts : 0 < ts)
    (hWd : ts ∣ W) (hHd : ts ∣ H) (hW : 0 < W) (hH : 0 < H) :
    1 ≤ tileCount ts W H g ↔
      (g.uvx - max g.radius0 1 < (W : ℚ) ∧ g.uvy - max g.radius0 1 < (H : ℚ)) := by
  have hx := tile_axis_pos ts W g.uvx (max g.radius0 1) hts hWd hW
  have hy := tile_axis_pos ts H g.uvy (max g.radius0 1) hts hHd hH
  have hdx : (1 ≤ (gaussianTileRanges ts W H g).2.1 - (gaussianTileRanges ts W H g).1.1) ↔
      g.uvx - max g.radius0 1 < (W : ℚ) := by
    rw [gaussianTileRanges_eq]
    exact hx
  have hdy : (1 ≤ (gaussianTileRanges ts W H g).2.2 - (gaussianTileRanges ts W H g).1.2) ↔
      g.uvy - max g.radius0 1 < (H : ℚ) := by
    rw [gaussianTileRanges_eq]
    exact hy
  obtain ⟨_, _, _, _, h5, h6⟩ := box_bounds ts W H g hts (le_of_lt hW) (le_of_lt hH)
  show 1 ≤ ((gaussianTileRanges ts W H g).2.1 - (gaussianTileRanges ts W H g).1.1) *
      ((gaussianTileRanges ts W H g).2.2 - (gaussianTileRanges ts W H g).1.2) ↔ _
  constructor
  · intro hprod
    constructor
    · rw [← hdx]
      by_contra hc
      push_neg at hc
      nlinarith
    · rw [← hdy]
      by_contra hc
      push_neg at hc
      nlinarith
  · intro hrhs
    have hax := hdx.mpr hrhs.1
    have hay := hdy.mpr hrhs.2
    nlinarith

/-- C3 (amended) witness. -/
theorem tileCount_pos_iff_witness :
    (0 : ℤ) < 16 ∧ (16 : ℤ) ∣ 32 ∧ (0 : ℤ) < 32 ∧
    (1 ≤ tileCount 16 32 32 ⟨-100, 8, 1⟩ ↔
      ((-100 : ℚ) - max 1 1 < (32 : ℚ) ∧ (8 : ℚ) - max 1 1 < (32 : ℚ))) :=
  ⟨by norm_num, ⟨2, by norm_num⟩, by norm_num,
   tileCount_pos_iff 16 32 32 ⟨-100, 8, 1⟩ (by norm_num) ⟨2, by norm_num⟩
     ⟨2, by norm_num⟩ (by norm_num) (by norm_num)⟩

/-- C5: for every pixel of a forward lane run with alphas and densities
non-negative, `clamp_max_alpha ∈ [0, 1)` and
`saturate_threshold ∈ (0, 1]`, the written image alpha `1 - T` lies in
`[0, saturate_threshold]` and the final transmittance satisfies
`T ≥ 1 - saturate_threshold`. -/
theorem image_alpha_bounds (tp F : ℕ) (cfg : RasterConfig)
    (pdf : Fin tp → ℕ → ℚ) (pointAlpha : ℕ → ℚ) (features : ℕ → Fin F → ℚ)
    (o2p : List ℕ) (startOffset endOffset : ℕ)
    (hpa : ∀ p2, 0 ≤ pointAlpha p2)
    (hpdf : ∀ i2 p2, 0 ≤ pdf i2 p2)
    (hclamp : 0 ≤ cfg.clampMaxAlpha ∧ cfg.clampMaxAlpha < 1)
    (hsat : 0 < cfg.saturateThreshold ∧ cfg.saturateThreshold ≤ 1)
    (i : Fin tp) :
    0 ≤ imageAlphaOut tp F
        (forwardLane tp F cfg pdf pointAlpha features o2p startOffset endOffset) i ∧
    imageAlphaOut tp F
        (forwardLane tp F cfg pdf pointAlpha features o2p startOffset endOffset) i ≤
      cfg.saturateThreshold ∧
    imageAlphaOut tp F
        (forwardLane tp F cfg pdf pointAlpha features o2p startOffset endOffset) i =
      1 - (forwardLane tp F cfg pdf pointAlpha features o2p startOffset endOffset).T i ∧
    1 - cfg.saturateThreshold ≤
      (forwardLane tp F cfg pdf pointAlpha features o2p startOffset endOffset).T i := by
  have hrun := laneRun_T_inv tp F cfg pdf pointAlpha features o2p hpa hpdf hclamp hsat.2
    (List.range' startOffset (endOffset - startOffset)) (initLane tp F startOffset)
    (fun i2 => by
      constructor
      · show 1 - cfg.saturateThreshold ≤ (1 : ℚ)
        linarith [hsat.1]
      · exact le_refl 1)
  have hi := hrun i
  unfold forwardLane imageAlphaOut
  exact ⟨by linarith [hi.2], by linarith [hi.1], rfl, hi.1⟩

/-- C5 witness. -/
theorem image_alpha_bounds_witness :
    0 ≤ imageAlphaOut 1 1
        (forwardLane 1 1 ⟨1 / 255, 99 / 100, 9999 / 10000⟩ (fun _ _ => 1)
          (fun _ => 1 / 2) (fun _ _ => 1) [0] 0 1) 0 ∧
    imageAlphaOut 1 1
        (forwardLane 1 1 ⟨1 / 255, 99 / 100, 9999 / 10000⟩ (fun _ _ => 1)
          (fun _ => 1 / 2) (fun _ _ => 1) [0] 0 1) 0 ≤ (9999 / 10000 : ℚ) ∧
    imageAlphaOut 1 1
        (forwardLane 1 1 ⟨1 / 255, 99 / 100, 9999 / 10000⟩ (fun _ _ => 1)
          (fun _ => 1 / 2) (fun _ _ => 1) [0] 0 1) 0 =
      1 - (forwardLane 1 1 ⟨1 / 255, 99 / 100, 9999 / 10000⟩ (fun _ _ => 1)
          (fun _ => 1 / 2) (fun _ _ => 1) [0] 0 1).T 0 ∧
    1 - (9999 / 10000 : ℚ) ≤
      (forwardLane 1 1 ⟨1 / 255, 99 / 100, 9999 / 10000⟩ (fun _ _ => 1)
        (fun _ => 1 / 2) (fun _ _ => 1) [0] 0 1).T 0 :=
  image_alpha_bounds 1 1 ⟨1 / 255, 99 / 100, 9999 / 10000⟩ (fun _ _ => 1)
    (fun _ => 1 / 2) (fun _ _ => 1) [0] 0 1
    (fun p2 => by norm_num) (fun i2 p2 => by norm_num)
    ⟨by norm_num, by norm_num⟩ ⟨by norm_num, by norm_num⟩ 0

/-- C6: a backward record contributes gradients only when its raw alpha
reaches the threshold and its point index is within the pixel's
`image_last_valid`; otherwise the step is a no-op, and a pixel with
`image_last_valid = 0` leaves the gradient buffers untouched over its
whole range. -/
theorem backward_gating (F : ℕ) (cfg : RasterConfig) (pointAlpha : ℕ → ℚ)
    (features : ℕ → Fin F → ℚ) (pdfG : ℕ → ℚ) (dpMean : ℕ → ℚ × ℚ)
    (dpConic : ℕ → ℚ × ℚ × ℚ) (gradPixel : Fin F → ℚ) (lastIdx : ℕ)
    (o2p : List ℕ) :
    (∀ (st : BwdState F) (j : ℕ),
      ¬ (cfg.alphaThreshold ≤ pointAlpha (o2p.getD j 0) * pdfG (o2p.getD j 0) ∧
        j + 1 ≤ lastIdx) →
      backContrib F cfg pointAlpha features pdfG dpMean dpConic gradPixel
          lastIdx o2p st j = (PointGrad.zero, fun _ => 0) ∧
      backStep F cfg pointAlpha features pdfG dpMean dpConic gradPixel
          lastIdx o2p st j = st) ∧
    (lastIdx = 0 →
      ∀ (startOffset endOffset : ℕ) (st0 : BwdState F),
        backRun F cfg pointAlpha features pdfG dpMean dpConic gradPixel
          lastIdx o2p startOffset endOffset st0 = st0) := by
  constructor
  · intro st j h
    have hh := backStepFull_no_grad F cfg pointAlpha features pdfG dpMean dpConic
      gradPixel lastIdx o2p st j h
    constructor
    · unfold backContrib
      rw [hh]
    · unfold backStep
      rw [hh]
  · intro h0 startOffset endOffset st0
    unfold backRun
    apply foldl_fix
    intro a b
    have hgate : ¬ (cfg.alphaThreshold ≤ pointAlpha (o2p.getD b 0) * pdfG (o2p.getD b 0) ∧
        b + 1 ≤ lastIdx) := by
      intro hc
      exact absurd hc.2 (by omega)
    unfold backStep
    rw [backStepFull_no_grad F cfg pointAlpha features pdfG dpMean dpConic
      gradPixel lastIdx o2p a b hgate]

/-- C6 witness. -/
theorem backward_gating_witness :
    ¬ ((1 : ℚ) / 2 ≤ (0 : ℚ) * 0 ∧ 0 + 1 ≤ 0) ∧
    backStep 1 ⟨1 / 2, 1, 1⟩ (fun _ => 0) (fun _ _ => 0) (fun _ => 0)
        (fun _ => (0, 0)) (fun _ => (0, 0, 0)) (fun _ => 0) 0 []
        ⟨1, fun _ => 0, fun _ => PointGrad.zero, fun _ _ => 0⟩ 0 =
      ⟨1, fun _ => 0, fun _ => PointGrad.zero, fun _ _ => 0⟩ ∧
    backRun 1 ⟨1 / 2, 1, 1⟩ (fun _ => 0) (fun _ _ => 0) (fun _ => 0)
        (fun _ => (0, 0)) (fun _ => (0, 0, 0)) (fun _ => 0) 0 [] 0 3
        ⟨1, fun _ => 0, fun _ => PointGrad.zero, fun _ _ => 0⟩ =
      ⟨1, fun _ => 0, fun _ => PointGrad.zero, fun _ _ => 0⟩ := by
  have hgate : ¬ ((1 : ℚ) / 2 ≤ (0 : ℚ) * 0 ∧ 0 + 1 ≤ 0) := by
    intro hc
    exact absurd hc.2 (by omega)
  refine ⟨hgate, ?_, ?_⟩
  · exact ((backward_gating 1 ⟨1 / 2, 1, 1⟩ (fun _ => 0) (fun _ _ => 0) (fun _ => 0)
      (fun _ => (0, 0)) (fun _ => (0, 0, 0)) (fun _ => 0) 0 []).1
      ⟨1, fun _ => 0, fun _ => PointGrad.zero, fun _ _ => 0⟩ 0 hgate).2
  · exact (backward_gating 1 ⟨1 / 2, 1, 1⟩ (fun _ => 0) (fun _ _ => 0) (fun _ => 0)
      (fun _ => (0, 0)) (fun _ => (0, 0, 0)) (fun _ => 0) 0 []).2 rfl 0 3
      ⟨1, fun _ => 0, fun _ => PointGrad.zero, fun _ _ => 0⟩

/-- C7: under the gate, the backward step divides the transmittance by
`1 - alpha` (alpha clamped), emits the feature gradient
`alpha * T * grad_pixel`, forms the alpha gradient as the feature-sum
`(c * T - w / (1 - alpha)) * grad_pixel` scaled into the point gradient
by the Gaussian density, and updates the remainder sum
`w += c * alpha * T`. -/
theorem backward_grad_formulas (F : ℕ) (cfg : RasterConfig) (pointAlpha : ℕ → ℚ)
    (features : ℕ → Fin F → ℚ) (pdfG : ℕ → ℚ) (dpMean : ℕ → ℚ × ℚ)
    (dpConic : ℕ → ℚ × ℚ × ℚ) (gradPixel : Fin F → ℚ) (lastIdx : ℕ)
    (o2p : List ℕ) (st : BwdState F) (j p : ℕ) (alpha Tn : ℚ)
    (hp : p = o2p.getD j 0)
    (hgate : cfg.alphaThreshold ≤ pointAlpha p * pdfG p ∧ j + 1 ≤ lastIdx)
    (halpha : alpha = min (pointAlpha p * pdfG p) cfg.clampMaxAlpha)
    (hTn : Tn = st.T / (1 - alpha)) :
    (backStep F cfg pointAlpha features pdfG dpMean dpConic gradPixel
        lastIdx o2p st j).T = Tn ∧
    (backStep F cfg pointAlpha features pdfG dpMean dpConic gradPixel
        lastIdx o2p st j).w = (fun d => st.w d + features p d * alpha * Tn) ∧
    (backContrib F cfg pointAlpha features pdfG dpMean dpConic gradPixel
        lastIdx o2p st j).2 = (fun d => alpha * Tn * gradPixel d) ∧
    (backContrib F cfg pointAlpha features pdfG dpMean dpConic gradPixel
        lastIdx o2p st j).1.dalpha =
      (∑ d, (features p d * Tn - st.w d / (1 - alpha)) * gradPixel d) * pdfG p := by
  subst hTn
  subst halpha
  subst hp
  unfold backStep backContrib
  simp only [backStepFull]
  rw [if_pos hgate]
  exact ⟨rfl, rfl, rfl, rfl⟩

/-- C7 witness. -/
theorem backward_grad_formulas_witness :
    ((0 : ℚ) ≤ (1 : ℚ) * (1 / 2) ∧ 0 + 1 ≤ 1) ∧
    (backStep 1 ⟨0, 1 / 2, 1⟩ (fun _ => 1) (fun _ _ => 1) (fun _ => 1 / 2)
        (fun _ => (0, 0)) (fun _ => (0, 0, 0)) (fun _ => 1) 1 [0]
        ⟨1, fun _ => 0, fun _ => PointGrad.zero, fun _ _ => 0⟩ 0).T = 2 := by
  have hgate : (0 : ℚ) ≤ (1 : ℚ) * (1 / 2) ∧ 0 + 1 ≤ 1 := ⟨by norm_num, le_refl 1⟩
  refine ⟨hgate, ?_⟩
  have h := (backward_grad_formulas 1 ⟨0, 1 / 2, 1⟩ (fun _ => 1) (fun _ _ => 1)
    (fun _ => 1 / 2) (fun _ => (0, 0)) (fun _ => (0, 0, 0)) (fun _ => 1) 1 [0]
    ⟨1, fun _ => 0, fun _ => PointGrad.zero, fun _ _ => 0⟩ 0 0 (1 / 2) 2
    rfl hgate (by norm_num) (by norm_num)).1
  exact h

/-- C8 counterexample: two forward lane runs whose density tables agree
on pixel `0` everywhere, yet pixel `0`'s final transmittance differs
(`1` versus `3/4`), because in the first run every pixel of the lane
refuses the first Gaussian and the shared `pixel_saturated` break stops
the lane before pixel `0` can accept the second. One pixel's state thus
alters its lane-mates' compositing. -/
theorem lane_saturation_coupling :
    pdfRun1 0 = pdfRun2 0 ∧
    (forwardLane 2 1 ⟨1 / 100, 1 / 2, 1 / 2⟩ pdfRun1 (fun _ => 1) (fun _ _ => 1)
      [0, 1] 0 2).T 0 = 1 ∧
    (forwardLane 2 1 ⟨1 / 100, 1 / 2, 1 / 2⟩ pdfRun2 (fun _ => 1) (fun _ _ => 1)
      [0, 1] 0 2).T 0 = 3 / 4 := by
  have hfin : List.finRange 2 = [0, 1] := by decide
  have hrange : List.range' 0 (2 - 0) = [0, 1] := by decide
  refine ⟨rfl, ?_, ?_⟩
  · unfold forwardLane
    rw [hrange]
    norm_num [laneRun, processGauss, hfin, pixelStep_cases, clampedAlpha,
      pdfRun1, initLane, Function.update]
  · unfold forwardLane
    rw [hrange]
    norm_num [laneRun, processGauss, hfin, pixelStep_cases, clampedAlpha,
      pdfRun2, initLane, Function.update]

/-- C8 (amended): within the processing of one Gaussian the forward lane
iterates its pixels in the fixed `finRange` order and each pixel's
compositing state (its transmittance and feature row) evolves from its
own previous state and its own density only, unaffected by its
lane-mates. (Which Gaussians get processed — the shared saturation
break and `last_point_idx` — remains lane-shared, as the counterexample
shows.) -/
theorem processGauss_pixel_local (tp F : ℕ) (cfg : RasterConfig)
    (pdf1 pdf2 : Fin tp → ℕ → ℚ) (pointAlpha : ℕ → ℚ)
    (features : ℕ → Fin F → ℚ) (o2p : List ℕ) (st1 st2 : LaneState tp F)
    (j : ℕ) (i : Fin tp) (hpdf : pdf1 i = pdf2 i)
    (hT : st1.T i = st2.T i) (hA : st1.accum i = st2.accum i) :
    (processGauss tp F cfg pdf1 pointAlpha features o2p st1 j).T i =
      (processGauss tp F cfg pdf2 pointAlpha features o2p st2 j).T i ∧
    (processGauss tp F cfg pdf1 pointAlpha features o2p st1 j).accum i =
      (processGauss tp F cfg pdf2 pointAlpha features o2p st2 j).accum i := by
  unfold processGauss
  exact foldsteps_local tp F cfg pdf1 pdf2 pointAlpha features (o2p.getD j 0) j i
    (congrFun hpdf (o2p.getD j 0)) (List.finRange tp)
    { st1 with saturated := true } { st2 with saturated := true } hT hA

/-- C8 (amended) witness. -/
theorem processGauss_pixel_local_witness :
    pdfRun1 0 = pdfRun2 0 ∧
    (processGauss 2 1 ⟨1 / 100, 1 / 2, 1 / 2⟩ pdfRun1 (fun _ => 1) (fun _ _ => 1)
        [0, 1] (initLane 2 1 0) 0).T 0 =
      (processGauss 2 1 ⟨1 / 100, 1 / 2, 1 / 2⟩ pdfRun2 (fun _ => 1) (fun _ _ => 1)
        [0, 1] (initLane 2 1 0) 0).T 0 ∧
    (processGauss 2 1 ⟨1 / 100, 1 / 2, 1 / 2⟩ pdfRun1 (fun _ => 1) (fun _ _ => 1)
        [0, 1] (initLane 2 1 0) 0).accum 0 =
      (processGauss 2 1 ⟨1 / 100, 1 / 2, 1 / 2⟩ pdfRun2 (fun _ => 1) (fun _ _ => 1)
        [0, 1] (initLane 2 1 0) 0).accum 0 := by
  obtain ⟨h1, h2⟩ := processGauss_pixel_local 2 1 ⟨1 / 100, 1 / 2, 1 / 2⟩
    pdfRun1 pdfRun2 (fun _ => 1) (fun _ _ => 1) [0, 1]
    (initLane 2 1 0) (initLane 2 1 0) 0 0 rfl rfl rfl
  exact ⟨rfl, h1, h2⟩

/-- C9 counterexample: with `W = 20` not a multiple of `tile_size = 16`
the tile mapper does not reject; it silently returns the empty outputs,
dropping the on-screen Gaussian at `x = 18` that lies in the truncated
strip. -/
theorem misaligned_not_rejected :
    (mapToTiles 16 20 16 [⟨18, 8, 1⟩] [f32One]).1 = [] ∧
    (mapToTiles 16 20 16 [⟨18, 8, 1⟩] [f32One]).2 0 = (0, 0) ∧
    tileCount 16 20 16 ⟨18, 8, 1⟩ = 0 ∧
    ¬ ((16 : ℤ) ∣ 20) := by
  have hf20 : Int.fdiv (20 : ℤ) 16 = 1 := by decide
  have hf16 : Int.fdiv (16 : ℤ) 16 = 1 := by decide
  have hr : gaussianTileRanges 16 20 16 ⟨18, 8, 1⟩ = ((1, 0), (1, 1)) := by
    rw [gaussianTileRanges_eq, hf20, hf16]
    norm_num
  have htc : tileCount 16 20 16 ⟨18, 8, 1⟩ = 0 := by
    show ((gaussianTileRanges 16 20 16 ⟨18, 8, 1⟩).2.1 -
        (gaussianTileRanges 16 20 16 ⟨18, 8, 1⟩).1.1) *
      ((gaussianTileRanges 16 20 16 ⟨18, 8, 1⟩).2.2 -
        (gaussianTileRanges 16 20 16 ⟨18, 8, 1⟩).1.2) = 0
    rw [hr]
    decide
  have hto : ¬ 0 < totalOverlap 16 20 16 [⟨18, 8, 1⟩] := by
    show ¬ 0 < (List.map (tileCount 16 20 16) [⟨18, 8, 1⟩]).sum
    simp [htc]
  have hmt : mapToTiles 16 20 16 [⟨18, 8, 1⟩] [f32One] = ([], fun _ => (0, 0)) := by
    unfold mapToTiles
    rw [if_neg hto]
  rw [hmt]
  refine ⟨rfl, rfl, htc, ?_⟩
  omega

/-- C9 (amended): instead of rejecting a misaligned width, the mapper
truncates the tile grid at `ts * (W / ts) < W` and a Gaussian whose
clamped lower bound starts at or beyond the truncation emits zero
overlaps — it is silently dropped rather than an error being raised. -/
theorem misaligned_strip_dropped (ts W H : ℤ) (g : Gaussian) (hts : 0 < ts)
    (hW : 0 < W) (hnd : ¬ ts ∣ W)
    (hstrip : ((ts * Int.fdiv W ts : ℤ) : ℚ) ≤ max 0 (g.uvx - max g.radius0 1)) :
    tileCount ts W H g = 0 ∧ ts * Int.fdiv W ts < W := by
  have htsQ : (0 : ℚ) < (ts : ℚ) := by exact_mod_cast hts
  have hfd : Int.fdiv W ts = W / ts := Int.fdiv_eq_ediv W (le_of_lt hts)
  have hmod : W % ts ≠ 0 := fun hc => hnd (Int.dvd_iff_emod_eq_zero.mpr hc)
  have hmodpos : 0 < W % ts := by
    have := Int.emod_nonneg W (ne_of_gt hts)
    omega
  have hsplit := Int.ediv_add_emod W ts
  have hlt : ts * Int.fdiv W ts < W := by
    rw [hfd]
    omega
  refine ⟨?_, hlt⟩
  have hmin : ⌊max 0 (g.uvx - max g.radius0 1) / (ts : ℚ)⌋ ≥ Int.fdiv W ts := by
    rw [ge_iff_le, Int.le_floor]
    rw [le_div_iff htsQ]
    calc ((Int.fdiv W ts : ℤ) : ℚ) * (ts : ℚ) = ((ts * Int.fdiv W ts : ℤ) : ℚ) := by
          push_cast
          ring
      _ ≤ max 0 (g.uvx - max g.radius0 1) := hstrip
  show ((gaussianTileRanges ts W H g).2.1 - (gaussianTileRanges ts W H g).1.1) *
    ((gaussianTileRanges ts W H g).2.2 - (gaussianTileRanges ts W H g).1.2) = 0
  rw [gaussianTileRanges_eq]
  show (min (max (⌊(g.uvx + max g.radius0 1) / (ts : ℚ)⌋ + 1)
      (min ⌊max 0 (g.uvx - max g.radius0 1) / (ts : ℚ)⌋ (Int.fdiv W ts) + 1))
      (Int.fdiv W ts) -
    min ⌊max 0 (g.uvx - max g.radius0 1) / (ts : ℚ)⌋ (Int.fdiv W ts)) * _ = 0
  have hz : min (max (⌊(g.uvx + max g.radius0 1) / (ts : ℚ)⌋ + 1)
      (min ⌊max 0 (g.uvx - max g.radius0 1) / (ts : ℚ)⌋ (Int.fdiv W ts) + 1))
      (Int.fdiv W ts) -
    min ⌊max 0 (g.uvx - max g.radius0 1) / (ts : ℚ)⌋ (Int.fdiv W ts) = 0 := by
    omega
  rw [hz, zero_mul]

/-- C9 (amended) witness. -/
theorem misaligned_strip_dropped_witness :
    (0 : ℤ) < 16 ∧ (0 : ℤ) < 20 ∧ ¬ ((16 : ℤ) ∣ 20) ∧
    (((16 * Int.fdiv 20 16 : ℤ) : ℚ) ≤ max 0 ((18 : ℚ) - max 1 1)) ∧
    tileCount 16 20 16 ⟨18, 8, 1⟩ = 0 ∧ (16 : ℤ) * Int.fdiv 20 16 < 20 := by
  have hf20 : Int.fdiv (20 : ℤ) 16 = 1 := by decide
  have hnd : ¬ ((16 : ℤ) ∣ 20) := by omega
  have hstrip : ((16 * Int.fdiv 20 16 : ℤ) : ℚ) ≤ max 0 ((18 : ℚ) - max 1 1) := by
    rw [hf20]
    norm_num
  obtain ⟨hc1, hc2⟩ := misaligned_strip_dropped 16 20 16 ⟨18, 8, 1⟩
    (by norm_num) (by norm_num) hnd hstrip
  exact ⟨by norm_num, by norm_num, hnd, hstrip, hc1, hc2⟩

/-- C1: within any tile's range of the tile mapper's output, the depths
of the referenced Gaussians are non-decreasing in the overlap index. -/
theorem tile_range_depths_sorted (ts W H : ℤ) (gs : List Gaussian) (ds : List F32)
    (hts : 0 < ts) (hW : 0 ≤ W) (hH : 0 ≤ H)
    (htiles : Int.fdiv W ts * Int.fdiv H ts ≤ 2 ^ 31)
    (t : ℤ) (k1 k2 : ℕ)
    (h1 : ((mapToTiles ts W H gs ds).2 t).1 ≤ k1) (h12 : k1 < k2)
    (h2 : k2 < ((mapToTiles ts W H gs ds).2 t).2) :
    (ds.getD ((mapToTiles ts W H gs ds).1.getD k1 0) default).val ≤
      (ds.getD ((mapToTiles ts W H gs ds).1.getD k2 0) default).val := by
  by_cases hpos : 0 < totalOverlap ts W H gs
  case neg =>
    exfalso
    have hmt : mapToTiles ts W H gs ds = ([], fun _ => (0, 0)) := by
      unfold mapToTiles
      rw [if_neg hpos]
    rw [hmt] at h2
    exact absurd h2 (Nat.not_lt_zero k2)
  case pos =>
  have hmt := mapToTiles_pos_eq ts W H gs ds hpos
  rw [hmt] at h1 h2 ⊢
  have h1' : (findRanges ((sortedEntries ts W H (Int.fdiv W ts) gs ds).map Prod.fst) t).1 ≤ k1 := h1
  have h2' : k2 < (findRanges ((sortedEntries ts W H (Int.fdiv W ts) gs ds).map Prod.fst) t).2 := h2
  by_cases hnil : (sortedEntries ts W H (Int.fdiv W ts) gs ds).map Prod.fst = []
  case pos =>
    exfalso
    rw [hnil, findRanges_nil] at h2'
    exact absurd h2' (Nat.not_lt_zero k2)
  case neg =>
  have hne : 0 < ((sortedEntries ts W H (Int.fdiv W ts) gs ds).map Prod.fst).length :=
    List.length_pos.mpr hnil
  have hmono := sorted_keys_mono ts W H gs ds hts hW hH htiles
  have hfr := findRanges_eq _ hne hmono t
  by_cases hp : t ∈ ((sortedEntries ts W H (Int.fdiv W ts) gs ds).map Prod.fst).map keyTile
  case neg =>
    exfalso
    rw [hfr, if_neg hp] at h2'
    exact absurd h2' (Nat.not_lt_zero k2)
  case pos =>
  rw [hfr, if_pos hp] at h1' h2'
  have ha : tileStartIdx ((sortedEntries ts W H (Int.fdiv W ts) gs ds).map Prod.fst) t ≤ k1 := h1'
  have hb : k2 < tileStopIdx ((sortedEntries ts W H (Int.fdiv W ts) gs ds).map Prod.fst) t := h2'
  have hstop : tileStopIdx ((sortedEntries ts W H (Int.fdiv W ts) gs ds).map Prod.fst) t ≤
      ((sortedEntries ts W H (Int.fdiv W ts) gs ds).map Prod.fst).length :=
    List.countP_le_length _
  have hk1 : k1 < ((sortedEntries ts W H (Int.fdiv W ts) gs ds).map Prod.fst).length := by omega
  have hk2 : k2 < ((sortedEntries ts W H (Int.fdiv W ts) gs ds).map Prod.fst).length := by omega
  have hk1s : k1 < (sortedEntries ts W H (Int.fdiv W ts) gs ds).length := by
    rw [List.length_map] at hk1
    exact hk1
  have hk2s : k2 < (sortedEntries ts W H (Int.fdiv W ts) gs ds).length := by
    rw [List.length_map] at hk2
    exact hk2
  have ht1 := (sorted_tile_interval _ t hmono k1 hk1).mpr ⟨by omega, by omega⟩
  have ht2 := (sorted_tile_interval _ t hmono k2 hk2).mpr ⟨by omega, by omega⟩
  rw [getD_map (sortedEntries ts W H (Int.fdiv W ts) gs ds) Prod.fst 0 (0, 0) k1 hk1s] at ht1
  rw [getD_map (sortedEntries ts W H (Int.fdiv W ts) gs ds) Prod.fst 0 (0, 0) k2 hk2s] at ht2
  have hwf := sortedEntries_wf ts W H gs ds hts hW hH htiles
  obtain ⟨tx1, ty1, hi1, hbox1, h01, h11, hkey1, hkt1⟩ :=
    entryWF_keyTile ts W H _ gs ds _
      (hwf _ (getD_mem (sortedEntries ts W H (Int.fdiv W ts) gs ds) (0, 0) k1 hk1s))
  obtain ⟨tx2, ty2, hi2, hbox2, h02, h12b, hkey2, hkt2⟩ :=
    entryWF_keyTile ts W H _ gs ds _
      (hwf _ (getD_mem (sortedEntries ts W H (Int.fdiv W ts) gs ds) (0, 0) k2 hk2s))
  have hpair := sortedEntries_pairwise ts W H (Int.fdiv W ts) gs ds
  have hle : ((sortedEntries ts W H (Int.fdiv W ts) gs ds).getD k1 (0, 0)).1 ≤
      ((sortedEntries ts W H (Int.fdiv W ts) gs ds).getD k2 (0, 0)).1 := by
    have hpg := List.pairwise_iff_get.mp hpair ⟨k1, hk1s⟩ ⟨k2, hk2s⟩ (by
      simp only [Fin.mk_lt_mk]
      omega)
    rw [List.getD_eq_getElem _ (0, 0) hk1s, List.getD_eq_getElem _ (0, 0) hk2s]
    simpa using hpg
  have hbits1 := F32.bits_lt
    (ds.getD ((sortedEntries ts W H (Int.fdiv W ts) gs ds).getD k1 (0, 0)).2 default)
  have hbits2 := F32.bits_lt
    (ds.getD ((sortedEntries ts W H (Int.fdiv W ts) gs ds).getD k2 (0, 0)).2 default)
  have he1 : tx1 + ty1 * Int.fdiv W ts = t := by
    rw [← hkt1]
    exact ht1
  have he2 : tx2 + ty2 * Int.fdiv W ts = t := by
    rw [← hkt2]
    exact ht2
  rw [he1] at hkey1
  rw [he2] at hkey2
  have hble : (ds.getD ((sortedEntries ts W H (Int.fdiv W ts) gs ds).getD k1 (0, 0)).2
      default).bits ≤
      (ds.getD ((sortedEntries ts W H (Int.fdiv W ts) gs ds).getD k2 (0, 0)).2 default).bits := by
    omega
  have hval := F32.val_le_val hble
  show (ds.getD (((sortedEntries ts W H (Int.fdiv W ts) gs ds).map Prod.snd).getD k1 0)
      default).val ≤
    (ds.getD (((sortedEntries ts W H (Int.fdiv W ts) gs ds).map Prod.snd).getD k2 0) default).val
  rw [getD_map (sortedEntries ts W H (Int.fdiv W ts) gs ds) Prod.snd 0 (0, 0) k1 hk1s,
    getD_map (sortedEntries ts W H (Int.fdiv W ts) gs ds) Prod.snd 0 (0, 0) k2 hk2s]
  exact hval

/-- C2: every Gaussian appears exactly once in the output range of each
tile of its clamped bounding box, and every record in that tile's range
refers to a Gaussian whose box contains the tile. -/
theorem tile_overlap_exactly_once (ts W H : ℤ) (gs : List Gaussian) (ds : List F32)
    (hts : 0 < ts) (hW : 0 ≤ W) (hH : 0 ≤ H)
    (htiles : Int.fdiv W ts * Int.fdiv H ts ≤ 2 ^ 31)
    (hlen : gs.length = ds.length)
    (g : ℕ) (hg : g < gs.length) (tx ty : ℤ)
    (hbox : inBox ts W H (gs.getD g default) tx ty) :
    (List.range (mapToTiles ts W H gs ds).1.length).countP
      (fun k => decide (((mapToTiles ts W H gs ds).2 (tx + ty * Int.fdiv W ts)).1 ≤ k ∧
        k < ((mapToTiles ts W H gs ds).2 (tx + ty * Int.fdiv W ts)).2 ∧
        (mapToTiles ts W H gs ds).1.getD k 0 = g)) = 1 ∧
    (∀ k, ((mapToTiles ts W H gs ds).2 (tx + ty * Int.fdiv W ts)).1 ≤ k →
      k < ((mapToTiles ts W H gs ds).2 (tx + ty * Int.fdiv W ts)).2 →
      inBox ts W H (gs.getD ((mapToTiles ts W H gs ds).1.getD k 0) default) tx ty) := by
  have hpos := totalOverlap_pos ts W H gs hts hW hH g hg tx ty hbox
  have hmt := mapToTiles_pos_eq ts W H gs ds hpos
  have hcnt : (sortedEntries ts W H (Int.fdiv W ts) gs ds).countP
      (entryPred (tx + ty * Int.fdiv W ts) g) = 1 := by
    rw [(sortedEntries_perm ts W H (Int.fdiv W ts) gs ds).countP_eq]
    exact countP_allEntries ts W H gs ds hts hW hH htiles hlen g hg tx ty hbox
  have hmono := sorted_keys_mono ts W H gs ds hts hW hH htiles
  have hwf := sortedEntries_wf ts W H gs ds hts hW hH htiles
  obtain ⟨e0, he0, hpe0⟩ :
      ∃ e ∈ sortedEntries ts W H (Int.fdiv W ts) gs ds,
        entryPred (tx + ty * Int.fdiv W ts) g e = true :=
    List.countP_pos.mp (by omega)
  have hkt0 : keyTile e0.1 = tx + ty * Int.fdiv W ts := (of_decide_eq_true hpe0).1
  have hp : (tx + ty * Int.fdiv W ts) ∈
      ((sortedEntries ts W H (Int.fdiv W ts) gs ds).map Prod.fst).map keyTile := by
    rw [← hkt0]
    exact List.mem_map_of_mem keyTile (List.mem_map_of_mem Prod.fst he0)
  have hslen : 0 < (sortedEntries ts W H (Int.fdiv W ts) gs ds).length :=
    List.length_pos.mpr (fun hc => by
      rw [hc] at he0
      exact absurd he0 (List.not_mem_nil e0))
  have hne : 0 < ((sortedEntries ts W H (Int.fdiv W ts) gs ds).map Prod.fst).length := by
    rw [List.length_map]
    exact hslen
  have hfr := findRanges_eq _ hne hmono (tx + ty * Int.fdiv W ts)
  suffices hsuf :
      (List.range ((sortedEntries ts W H (Int.fdiv W ts) gs ds).map Prod.snd).length).countP
        (fun k => decide
          ((findRanges ((sortedEntries ts W H (Int.fdiv W ts) gs ds).map Prod.fst)
              (tx + ty * Int.fdiv W ts)).1 ≤ k ∧
            k < (findRanges ((sortedEntries ts W H (Int.fdiv W ts) gs ds).map Prod.fst)
              (tx + ty * Int.fdiv W ts)).2 ∧
            ((sortedEntries ts W H (Int.fdiv W ts) gs ds).map Prod.snd).getD k 0 = g)) = 1 ∧
      (∀ k, (findRanges ((sortedEntries ts W H (Int.fdiv W ts) gs ds).map Prod.fst)
          (tx + ty * Int.fdiv W ts)).1 ≤ k →
        k < (findRanges ((sortedEntries ts W H (Int.fdiv W ts) gs ds).map Prod.fst)
          (tx + ty * Int.fdiv W ts)).2 →
        inBox ts W H (gs.getD
          (((sortedEntries ts W H (Int.fdiv W ts) gs ds).map Prod.snd).getD k 0) default)
          tx ty) by
    rw [hmt]
    exact hsuf
  rw [hfr, if_pos hp]
  constructor
  · have hlen2 : ((sortedEntries ts W H (Int.fdiv W ts) gs ds).map Prod.snd).length =
        (sortedEntries ts W H (Int.fdiv W ts) gs ds).length := List.length_map _ _
    rw [hlen2]
    have hcong : ∀ k ∈ List.range (sortedEntries ts W H (Int.fdiv W ts) gs ds).length,
        (fun k => decide
          ((tileStartIdx ((sortedEntries ts W H (Int.fdiv W ts) gs ds).map Prod.fst)
              (tx + ty * Int.fdiv W ts),
            tileStopIdx ((sortedEntries ts W H (Int.fdiv W ts) gs ds).map Prod.fst)
              (tx + ty * Int.fdiv W ts)).1 ≤ k ∧
            k < (tileStartIdx ((sortedEntries ts W H (Int.fdiv W ts) gs ds).map Prod.fst)
              (tx + ty * Int.fdiv W ts),
              tileStopIdx ((sortedEntries ts W H (Int.fdiv W ts) gs ds).map Prod.fst)
                (tx + ty * Int.fdiv W ts)).2 ∧
            ((sortedEntries ts W H (Int.fdiv W ts) gs ds).map Prod.snd).getD k 0 = g)) k = true ↔
        (fun k => entryPred (tx + ty * Int.fdiv W ts) g
          ((sortedEntries ts W H (Int.fdiv W ts) gs ds).getD k (0, 0))) k = true := by
      intro k hk
      rw [List.mem_range] at hk
      have hks : k < (sortedEntries ts W H (Int.fdiv W ts) gs ds).length := hk
      have hkk : k < ((sortedEntries ts W H (Int.fdiv W ts) gs ds).map Prod.fst).length := by
        rw [List.length_map]
        exact hk
      constructor
      · intro hx
        obtain ⟨ha, hb, hc⟩ := of_decide_eq_true hx
        have hkt := (sorted_tile_interval _ (tx + ty * Int.fdiv W ts) hmono k hkk).mpr ⟨ha, hb⟩
        rw [getD_map (sortedEntries ts W H (Int.fdiv W ts) gs ds) Prod.fst 0 (0, 0) k hks]
          at hkt
        have hc' : ((sortedEntries ts W H (Int.fdiv W ts) gs ds).getD k (0, 0)).2 = g := by
          rw [getD_map (sortedEntries ts W H (Int.fdiv W ts) gs ds) Prod.snd 0 (0, 0) k hks]
            at hc
          exact hc
        exact decide_eq_true ⟨hkt, hc'⟩
      · intro hx
        obtain ⟨hkt, hsnd⟩ := of_decide_eq_true hx
        have hkt' : keyTile
            (((sortedEntries ts W H (Int.fdiv W ts) gs ds).map Prod.fst).getD k 0) =
            tx + ty * Int.fdiv W ts := by
          rw [getD_map (sortedEntries ts W H (Int.fdiv W ts) gs ds) Prod.fst 0 (0, 0) k hks]
          exact hkt
        have hiv := (sorted_tile_interval _ (tx + ty * Int.fdiv W ts) hmono k hkk).mp hkt'
        apply decide_eq_true
        refine ⟨hiv.1, hiv.2, ?_⟩
        rw [getD_map (sortedEntries ts W H (Int.fdiv W ts) gs ds) Prod.snd 0 (0, 0) k hks]
        exact hsnd
    rw [List.countP_congr hcong,
      countP_range_getD (sortedEntries ts W H (Int.fdiv W ts) gs ds) (0, 0)
        (entryPred (tx + ty * Int.fdiv W ts) g)]
    exact hcnt
  · intro k hk1 hk2
    have ha : tileStartIdx ((sortedEntries ts W H (Int.fdiv W ts) gs ds).map Prod.fst)
        (tx + ty * Int.fdiv W ts) ≤ k := hk1
    have hb : k < tileStopIdx ((sortedEntries ts W H (Int.fdiv W ts) gs ds).map Prod.fst)
        (tx + ty * Int.fdiv W ts) := hk2
    have hstop : tileStopIdx ((sortedEntries ts W H (Int.fdiv W ts) gs ds).map Prod.fst)
        (tx + ty * Int.fdiv W ts) ≤
        ((sortedEntries ts W H (Int.fdiv W ts) gs ds).map Prod.fst).length :=
      List.countP_le_length _
    have hkk : k < ((sortedEntries ts W H (Int.fdiv W ts) gs ds).map Prod.fst).length := by
      omega
    have hks : k < (sortedEntries ts W H (Int.fdiv W ts) gs ds).length := by
      rw [List.length_map] at hkk
      exact hkk
    have hkt := (sorted_tile_interval _ (tx + ty * Int.fdiv W ts) hmono k hkk).mpr ⟨ha, hb⟩
    rw [getD_map (sortedEntries ts W H (Int.fdiv W ts) gs ds) Prod.fst 0 (0, 0) k hks] at hkt
    obtain ⟨tx2, ty2, hi2, hbox2, h02, h12b, hkey2, hkt2⟩ :=
      entryWF_keyTile ts W H _ gs ds _
        (hwf _ (getD_mem (sortedEntries ts W H (Int.fdiv W ts) gs ds) (0, 0) k hks))
    have heq : tx2 + ty2 * Int.fdiv W ts = tx + ty * Int.fdiv W ts := by
      rw [← hkt2]
      exact hkt
    obtain ⟨hbx0, hbxw, hby0, hbyh, _, _⟩ := box_bounds ts W H (gs.getD g default) hts hW hH
    obtain ⟨hxl, hxu, hyl, hyu⟩ := hbox
    obtain ⟨hbx0b, hbxwb, hby0b, hbyhb, _, _⟩ := box_bounds ts W H
      (gs.getD ((sortedEntries ts W H (Int.fdiv W ts) gs ds).getD k (0, 0)).2 default)
      hts hW hH
    obtain ⟨hxl2, hxu2, hyl2, hyu2⟩ := hbox2
    obtain ⟨hteq1, hteq2⟩ := tid_inj (Int.fdiv W ts) tx2 ty2 tx ty
      (by omega) (by omega) (by omega) (by omega) heq
    show inBox ts W H (gs.getD
      (((sortedEntries ts W H (Int.fdiv W ts) gs ds).map Prod.snd).getD k 0) default) tx ty
    rw [getD_map (sortedEntries ts W H (Int.fdiv W ts) gs ds) Prod.snd 0 (0, 0) k hks]
    rw [← hteq1, ← hteq2]
    exact ⟨hxl2, hxu2, hyl2, hyu2⟩

/-- C1 witness. -/
theorem tile_range_depths_sorted_witness :
    ((mapToTiles 16 16 16 [⟨8, 8, 1⟩, ⟨8, 8, 1⟩] [f32Two, f32One]).2 0).1 ≤ 0 ∧
    (0 : ℕ) < 1 ∧
    1 < ((mapToTiles 16 16 16 [⟨8, 8, 1⟩, ⟨8, 8, 1⟩] [f32Two, f32One]).2 0).2 ∧
    ([f32Two, f32One].getD
        ((mapToTiles 16 16 16 [⟨8, 8, 1⟩, ⟨8, 8, 1⟩] [f32Two, f32One]).1.getD 0 0)
        default).val ≤
      ([f32Two, f32One].getD
        ((mapToTiles 16 16 16 [⟨8, 8, 1⟩, ⟨8, 8, 1⟩] [f32Two, f32One]).1.getD 1 0)
        default).val := by
  have hf : Int.fdiv (16 : ℤ) 16 = 1 := by decide
  have hr : gaussianTileRanges 16 16 16 ⟨8, 8, 1⟩ = ((0, 0), (1, 1)) := by
    rw [gaussianTileRanges_eq, hf]
    norm_num
  have htc : tileCount 16 16 16 ⟨8, 8, 1⟩ = 1 := by
    show ((gaussianTileRanges 16 16 16 ⟨8, 8, 1⟩).2.1 -
        (gaussianTileRanges 16 16 16 ⟨8, 8, 1⟩).1.1) *
      ((gaussianTileRanges 16 16 16 ⟨8, 8, 1⟩).2.2 -
        (gaussianTileRanges 16 16 16 ⟨8, 8, 1⟩).1.2) = 1
    rw [hr]
    decide
  have hto : 0 < totalOverlap 16 16 16 [⟨8, 8, 1⟩, ⟨8, 8, 1⟩] := by
    show 0 < (List.map (tileCount 16 16 16) [⟨8, 8, 1⟩, ⟨8, 8, 1⟩]).sum
    norm_num [htc]
  have hmt := mapToTiles_pos_eq 16 16 16 [⟨8, 8, 1⟩, ⟨8, 8, 1⟩] [f32Two, f32One] hto
  rw [hf] at hmt
  have hef0 : entriesFor 16 16 16 1 0 ⟨8, 8, 1⟩ f32Two = [(1073741824, 0)] := by
    unfold entriesFor
    rw [hr]
    decide
  have hef1 : entriesFor 16 16 16 1 1 ⟨8, 8, 1⟩ f32One = [(1065353216, 1)] := by
    unfold entriesFor
    rw [hr]
    decide
  have hae : allEntries 16 16 16 1 [⟨8, 8, 1⟩, ⟨8, 8, 1⟩] [f32Two, f32One] =
      [(1073741824, 0), (1065353216, 1)] := by
    show ([(0, ((⟨8, 8, 1⟩ : Gaussian), f32Two)),
        (1, ((⟨8, 8, 1⟩ : Gaussian), f32One))]).flatMap
        (fun p => entriesFor 16 16 16 1 p.1 p.2.1 p.2.2) =
      [(1073741824, 0), (1065353216, 1)]
    simp only [List.flatMap_cons, List.flatMap_nil]
    rw [hef0, hef1]
    rfl
  have hse : sortedEntries 16 16 16 1 [⟨8, 8, 1⟩, ⟨8, 8, 1⟩] [f32Two, f32One] =
      [(1065353216, 1), (1073741824, 0)] := by
    unfold sortedEntries
    rw [hae]
    simp [List.mergeSort]
  have htab : (mapToTiles 16 16 16 [⟨8, 8, 1⟩, ⟨8, 8, 1⟩] [f32Two, f32One]).2 0 = (0, 2) := by
    rw [hmt, hse]
    decide
  have h1w : ((mapToTiles 16 16 16 [⟨8, 8, 1⟩, ⟨8, 8, 1⟩] [f32Two, f32One]).2 0).1 ≤ 0 := by
    rw [htab]
  have h2w : 1 < ((mapToTiles 16 16 16 [⟨8, 8, 1⟩, ⟨8, 8, 1⟩] [f32Two, f32One]).2 0).2 := by
    rw [htab]
    decide
  exact ⟨h1w, by decide, h2w,
    tile_range_depths_sorted 16 16 16 [⟨8, 8, 1⟩, ⟨8, 8, 1⟩] [f32Two, f32One]
      (by decide) (by decide) (by decide) (by decide) 0 0 1 h1w (by decide) h2w⟩

/-- C2 witness. -/
theorem tile_overlap_exactly_once_witness :
    (List.range (mapToTiles 16 16 16 [⟨8, 8, 1⟩] [f32One]).1.length).countP
      (fun k => decide
        (((mapToTiles 16 16 16 [⟨8, 8, 1⟩] [f32One]).2 (0 + 0 * Int.fdiv 16 16)).1 ≤ k ∧
          k < ((mapToTiles 16 16 16 [⟨8, 8, 1⟩] [f32One]).2 (0 + 0 * Int.fdiv 16 16)).2 ∧
          (mapToTiles 16 16 16 [⟨8, 8, 1⟩] [f32One]).1.getD k 0 = 0)) = 1 ∧
    inBox 16 16 16
      ([(⟨8, 8, 1⟩ : Gaussian)].getD
        ((mapToTiles 16 16 16 [⟨8, 8, 1⟩] [f32One]).1.getD 0 0) default) 0 0 := by
  have hf : Int.fdiv (16 : ℤ) 16 = 1 := by decide
  have hr : gaussianTileRanges 16 16 16 ⟨8, 8, 1⟩ = ((0, 0), (1, 1)) := by
    rw [gaussianTileRanges_eq, hf]
    norm_num
  have htc : tileCount 16 16 16 ⟨8, 8, 1⟩ = 1 := by
    show ((gaussianTileRanges 16 16 16 ⟨8, 8, 1⟩).2.1 -
        (gaussianTileRanges 16 16 16 ⟨8, 8, 1⟩).1.1) *
      ((gaussianTileRanges 16 16 16 ⟨8, 8, 1⟩).2.2 -
        (gaussianTileRanges 16 16 16 ⟨8, 8, 1⟩).1.2) = 1
    rw [hr]
    decide
  have hto : 0 < totalOverlap 16 16 16 [⟨8, 8, 1⟩] := by
    show 0 < (List.map (tileCount 16 16 16) [⟨8, 8, 1⟩]).sum
    norm_num [htc]
  have hmt := mapToTiles_pos_eq 16 16 16 [⟨8, 8, 1⟩] [f32One] hto
  rw [hf] at hmt
  have hef0 : entriesFor 16 16 16 1 0 ⟨8, 8, 1⟩ f32One = [(1065353216, 0)] := by
    unfold entriesFor
    rw [hr]
    decide
  have hae : allEntries 16 16 16 1 [⟨8, 8, 1⟩] [f32One] = [(1065353216, 0)] := by
    show ([(0, ((⟨8, 8, 1⟩ : Gaussian), f32One))]).flatMap
        (fun p => entriesFor 16 16 16 1 p.1 p.2.1 p.2.2) = [(1065353216, 0)]
    simp only [List.flatMap_cons, List.flatMap_nil]
    rw [hef0]
    rfl
  have hse : sortedEntries 16 16 16 1 [⟨8, 8, 1⟩] [f32One] = [(1065353216, 0)] := by
    unfold sortedEntries
    rw [hae]
    simp [List.mergeSort]
  have hbox : inBox 16 16 16 (⟨8, 8, 1⟩ : Gaussian) 0 0 := by
    show (gaussianTileRanges 16 16 16 ⟨8, 8, 1⟩).1.1 ≤ 0 ∧
      (0 : ℤ) < (gaussianTileRanges 16 16 16 ⟨8, 8, 1⟩).2.1 ∧
      (gaussianTileRanges 16 16 16 ⟨8, 8, 1⟩).1.2 ≤ 0 ∧
      (0 : ℤ) < (gaussianTileRanges 16 16 16 ⟨8, 8, 1⟩).2.2
    rw [hr]
    decide
  have hthm := tile_overlap_exactly_once 16 16 16 [⟨8, 8, 1⟩] [f32One]
    (by decide) (by decide) (by decide) (by decide) (by decide) 0 (by decide) 0 0 hbox
  have htid : ((0 : ℤ) + 0 * Int.fdiv 16 16) = 0 := by decide
  have htab : (mapToTiles 16 16 16 [⟨8, 8, 1⟩] [f32One]).2 (0 + 0 * Int.fdiv 16 16) =
      (0, 1) := by
    rw [htid, hmt, hse]
    decide
  have h1k : ((mapToTiles 16 16 16 [⟨8, 8, 1⟩] [f32One]).2 (0 + 0 * Int.fdiv 16 16)).1 ≤ 0 := by
    rw [htab]
  have h2k : 0 < ((mapToTiles 16 16 16 [⟨8, 8, 1⟩] [f32One]).2 (0 + 0 * Int.fdiv 16 16)).2 := by
    rw [htab]
    decide
  exact ⟨hthm.1, hthm.2 0 h1k h2k⟩
